import Mathlib

/-!
Verification development for the HCAD property-record scraper.

The matching core of `Scraper.py` (text normalization, similarity scoring,
candidate ranking) is embedded at the character level: Python strings become
`List Char`, Python's whitespace split becomes `words`, and the two
`re.sub` calls of `normalize_fm` together with the word-boundary abbreviation
substitutions become explicit left-to-right scanners (`fmScanF`, `subWordF`)
that reproduce the leftmost, non-overlapping semantics of `re.sub` for those
particular patterns.  Fallible Python code (division that can raise
`ZeroDivisionError`, per-row exceptions that are caught and skipped) is
modelled with `Option`.  Scores are rationals.
-/

namespace Hcad

/-! ### Character classes (ASCII fragment of Python's semantics) -/

def isSpaceChar (c : Char) : Bool :=
  c == ' ' || c == '\t' || c == '\n' || c == '\x0b' || c == '\x0c' || c == '\r'

def isDigitChar (c : Char) : Bool :=
  decide (48 ≤ c.toNat ∧ c.toNat ≤ 57)

/-- Regex `\w` over ASCII: letters, digits, underscore. -/
def isWordChar (c : Char) : Bool :=
  decide (97 ≤ c.toNat ∧ c.toNat ≤ 122) || decide (65 ≤ c.toNat ∧ c.toNat ≤ 90) ||
    isDigitChar c || decide (c.toNat = 95)

/-- `str.lower` on one ASCII character. -/
def lowerChar (c : Char) : Char :=
  if 65 ≤ c.toNat ∧ c.toNat ≤ 90 then Char.ofNat (c.toNat + 32) else c

/-! ### `' '.join(s.split())` : whitespace split and re-join -/

def wordsAux : List Char → List Char → List (List Char)
  | [], acc => if acc.isEmpty then [] else [acc.reverse]
  | c :: cs, acc =>
    if isSpaceChar c then
      if acc.isEmpty then wordsAux cs [] else acc.reverse :: wordsAux cs []
    else wordsAux cs (c :: acc)

/-- Python `s.split()`: split on runs of whitespace, dropping empty pieces. -/
def words (l : List Char) : List (List Char) := wordsAux l []

/-- Python `' '.join(ws)`. -/
def unwords : List (List Char) → List Char
  | [] => []
  | [w] => w
  | w :: ws => w ++ ' ' :: unwords ws

/-- `' '.join(s.lower().split())` — lower-case and collapse whitespace
(`Scraper.py` lines 12-13). -/
def collapse (l : List Char) : List Char := unwords (words (l.map lowerChar))

/-! ### The farm-to-market rewrites of `normalize_fm` (`Scraper.py` lines 16-20)

`re.sub(r'\bfm\s*(\d+)\s*rd?\b', r'farm to market \1', s)` followed by
`re.sub(r'\bfm\s*(\d+)\b', r'farm to market \1', s)`.  Both patterns are
anchored on a word boundary before `fm`; `fmScanF` walks the string keeping
track of whether the previous character was a word character, and at each
boundary-`f` position attempts the remainder of the pattern via a tail
matcher.  Greedy `\s*`/`\d+` need no backtracking here because the classes
involved are pairwise disjoint. -/

/-- `\b` looking forward: next char absent or not a word char. -/
def boundaryOk (l : List Char) : Bool :=
  match l with
  | [] => true
  | c :: _ => !isWordChar c

def ftm : List Char := "farm to market ".data

/-- Match `m\s*(\d+)\s*rd?\b` (the continuation of pattern 1 after `f`).
Returns the captured digits and the unconsumed rest.  `rd?` requires the
literal `r`; the optional `d` is tried greedily first, and the fallback
without `d` can only succeed if the boundary after `r` holds. -/
def fmTail1 (cs : List Char) : Option (List Char × List Char) :=
  match cs with
  | [] => none
  | c :: r1 =>
    if c = 'm' then
      let r2 := r1.dropWhile isSpaceChar
      let ds := r2.takeWhile isDigitChar
      let r3 := r2.dropWhile isDigitChar
      if ds.isEmpty then none
      else
        match r3.dropWhile isSpaceChar with
        | [] => none
        | c2 :: r5 =>
          if c2 = 'r' then
            if r5.head? = some 'd' then
              if boundaryOk r5.tail then some (ds, r5.tail)
              else if boundaryOk r5 then some (ds, r5) else none
            else if boundaryOk r5 then some (ds, r5) else none
          else none
    else none

/-- Match `m\s*(\d+)\b` (the continuation of pattern 2 after `f`). -/
def fmTail2 (cs : List Char) : Option (List Char × List Char) :=
  match cs with
  | [] => none
  | c :: r1 =>
    if c = 'm' then
      let r2 := r1.dropWhile isSpaceChar
      let ds := r2.takeWhile isDigitChar
      let r3 := r2.dropWhile isDigitChar
      if ds.isEmpty then none
      else if boundaryOk r3 then some (ds, r3) else none
    else none

/-- Fuelled left-to-right `re.sub` scanner for the `fm` patterns.  `p` records
whether the previous character (in the original string, as `re` does) was a
word character; a match can only start where `p = false` (the `\b` before
`fm`).  After a replacement the scanner resumes after the matched text with
`p = true` (every way the matched text can end — digit, `r`, `d` — is a word
character).  Fuel `l.length` always suffices since each step consumes at
least one character. -/
def fmScanF (tail : List Char → Option (List Char × List Char)) :
    Nat → Bool → List Char → List Char
  | 0, _, l => l
  | _ + 1, _, [] => []
  | n + 1, p, c :: cs =>
    if p = false ∧ c = 'f' then
      match tail cs with
      | some (ds, rest) => ftm ++ ds ++ fmScanF tail n true rest
      | none => c :: fmScanF tail n true cs
    else c :: fmScanF tail n (isWordChar c) cs

def fmScan (tail : List Char → Option (List Char × List Char))
    (p : Bool) (l : List Char) : List Char :=
  fmScanF tail l.length p l

/-- `normalize_fm` (`Scraper.py` lines 16-20): pattern 1 first, then pattern 2. -/
def normalize_fm (l : List Char) : List Char :=
  fmScan fmTail2 false (fmScan fmTail1 false l)

/-- Full normalization used by `similar` (lines 12-23): lower-case, collapse
whitespace, then the farm-to-market rewrites. -/
def normalize (l : List Char) : List Char := normalize_fm (collapse l)

/-! ### `extract_numbers` (`Scraper.py` lines 26-40)

The Python code intends to skip a digit word following "farm to market", but
compares the two-element slice `words[i-2:i]` against the three-element list
`['farm', 'to', 'market']`; the comparison can never hold.  The embedding
reproduces the slice comparison exactly. -/

def farmW : List Char := "farm".data
def toW : List Char := "to".data
def marketW : List Char := "market".data

/-- Python `str.isdigit` (ASCII): nonempty and all digits. -/
def isNumberWord (w : List Char) : Bool := !w.isEmpty && w.all isDigitChar

def extract_numbers (ws : List (List Char)) : List (List Char) :=
  (List.range ws.length).filterMap fun i =>
    if 2 ≤ i ∧ (ws.drop (i - 2)).take 2 = [farmW, toW, marketW] then none
    else if isNumberWord (ws.getD i []) then some (ws.getD i []) else none

/-! ### Abbreviation substitutions (`Scraper.py` lines 64-81)

`re.sub(r'\b' + abbr + r'\b', full, s)` for each table entry, in dict order. -/

/-- Fuelled scanner for `re.sub(r'\babbr\b', full, s)`: at a position whose
previous character is not a word character, if `abbr` is a prefix of the
remaining text and is followed by a boundary, it is replaced and scanning
resumes after it (the abbreviation ends in a word character, so `p := true`). -/
def subWordF (ab full : List Char) : Nat → Bool → List Char → List Char
  | 0, _, l => l
  | _ + 1, _, [] => []
  | n + 1, p, c :: cs =>
    if p = false ∧ (c :: cs).take ab.length = ab ∧
        boundaryOk ((c :: cs).drop ab.length) = true then
      full ++ subWordF ab full n true ((c :: cs).drop ab.length)
    else c :: subWordF ab full n (isWordChar c) cs

def subWord (ab full l : List Char) : List Char := subWordF ab full l.length false l

/-- `common_replacements` in insertion (= iteration) order. -/
def replacementTable : List (List Char × List Char) :=
  [("rd".data, "road".data), ("st".data, "street".data), ("ln".data, "lane".data),
   ("dr".data, "drive".data), ("blvd".data, "boulevard".data), ("hwy".data, "highway".data)]

def applyReplacements (l : List Char) : List Char :=
  replacementTable.foldl (fun acc pr => subWord pr.1 pr.2 acc) l

/-! ### The similarity scorer `similar` (`Scraper.py` lines 6-91) -/

/-- Python `set(...)` of the split words, as a deduplicated list. -/
def tokenSet (l : List Char) : List (List Char) := (words l).dedup

/-- `len(a_set & b_set)` where `a` is already deduplicated. -/
def interCount (a b : List (List Char)) : Nat :=
  (a.filter (fun w => decide (w ∈ b))).length

/-- The standalone numbers `extract_numbers` finds in a normalized string. -/
def numsOf (s : String) : List (List Char) := extract_numbers (words (normalize s.data))

/-- Lines 46-48: both number lists nonempty and no position-wise equal pair. -/
def vetoFires (q c : String) : Bool :=
  (!(numsOf q).isEmpty && !(numsOf c).isEmpty) &&
    ((numsOf q).zip (numsOf c)).all (fun pr => !(pr.1 == pr.2))

/-- Line 62: `len(matching_words) / len(search_words)`. -/
def baseScore (q c : String) : ℚ :=
  (interCount (tokenSet (normalize q.data)) (tokenSet (normalize c.data)) : ℚ) /
    ((tokenSet (normalize q.data)).length : ℚ)

/-- Line 88: the same ratio after the abbreviation substitutions. -/
def abbrevScore (q c : String) : ℚ :=
  (interCount (tokenSet (applyReplacements (normalize q.data)))
      (tokenSet (applyReplacements (normalize c.data))) : ℚ) /
    ((tokenSet (applyReplacements (normalize q.data))).length : ℚ)

/-- `similar(search_str, target_str)`.  `none` models an uncaught exception
(the only candidate being the unguarded division at line 88, which would
raise `ZeroDivisionError` were its denominator zero). -/
def similar (q c : String) : Option ℚ :=
  if vetoFires q c then some 0
  else if tokenSet (normalize q.data) = [] then some 0
  else if baseScore q c < 4/5 then
    if tokenSet (applyReplacements (normalize q.data)) = [] then none
    else some (max (baseScore q c) (abbrevScore q c))
  else some (baseScore q c)

/-! ### The candidate ranker `find_best_match` (`Scraper.py` lines 93-140)

A search-result row is modelled as `Option SearchRow`: `none` stands for a
row failing the structural checks of lines 105-116 (missing address/account
divs, or fewer than two lines of inner text), `some` carries the extracted
address text (`text_parts[1].strip()`) and the raw account div text. -/

structure SearchRow where
  addressText : String
  accountText : String
deriving DecidableEq

/-- Python `str.strip()`. -/
def stripWs (l : List Char) : List Char :=
  ((l.dropWhile isSpaceChar).reverse.dropWhile isSpaceChar).reverse

/-- Lines 119-123: `account_number.isdigit() and len(account_number) == 13`
on the stripped account text. -/
def validAccount (a : String) : Bool :=
  (!(stripWs a.data).isEmpty && (stripWs a.data).all isDigitChar) &&
    (stripWs a.data).length == 13

/-- The score a single row contributes: `none` when the row is skipped
(structurally invalid, bad account number, or an exception inside the
per-row `try`, which includes `similar` raising). -/
def entryScore (q : String) (r : Option SearchRow) : Option ℚ :=
  match r with
  | none => none
  | some row => if validAccount row.accountText then similar q row.addressText else none

/-- The loop of lines 102-135: running best ratio and best index, updated
only on strictly greater similarity. -/
def fbmGo (q : String) : Nat → ℚ → Option Nat → List (Option SearchRow) → ℚ × Option Nat
  | _, b, o, [] => (b, o)
  | i, b, o, r :: rs =>
    match entryScore q r with
    | none => fbmGo q (i + 1) b o rs
    | some sc => if b < sc then fbmGo q (i + 1) sc (some i) rs else fbmGo q (i + 1) b o rs

/-- Lines 93-140: returns the best row index if `best_ratio > 0.6` and some
row was selected, else `None`. -/
def find_best_match (q : String) (rows : List (Option SearchRow)) : Option Nat :=
  let st := fbmGo q 0 0 none rows
  if 3/5 < st.1 ∧ st.2.isSome = true then st.2 else none

/-- The score of row `k`, `none` when out of range or skipped. -/
def rowScore (q : String) (rows : List (Option SearchRow)) (k : Nat) : Option ℚ :=
  match rows.get? k with
  | none => none
  | some r => entryScore q r

/-! ### The record extractor `extract_info` (`Scraper.py` lines 142-203)

A record page is modelled by the outcomes of its CSS-selector queries, in
the order the code issues them: indices 0-10 are the eleven main field
selectors, 11 is the `#BuildingSummaryComponent` presence check, 12-14 are
the building-detail selectors.  `Except.error ()` models `select_one` (or
the subsequent text access) raising; `Except.ok none` models "element not
found" (the code then stores `"N/A"`); `Except.ok (some t)` yields `t.strip()`. -/

abbrev Doc := Nat → Except Unit (Option String)

abbrev Record := List (String × String)

/-- Python dict assignment `info[k] = v`: overwrite the first (only) binding
of `k` in place, else append a new binding at the end. -/
def setField : Record → String → String → Record
  | [], k, v => [(k, v)]
  | pr :: r, k, v => if pr.1 = k then (k, v) :: r else pr :: setField r k v

/-- Python dict lookup `info.get(k)`. -/
def getField (r : Record) (k : String) : Option String :=
  (r.find? (fun pr => pr.1 == k)).map (fun pr => pr.2)

def stripStr (s : String) : String := ⟨stripWs s.data⟩

/-- `el.text.strip() if el else "N/A"`. -/
def fieldVal (v : Option String) : String :=
  match v with
  | some t => stripStr t
  | none => "N/A"

def mainFieldSteps : List (Nat × String) :=
  [(0, "Account"), (1, "Name"), (2, "Mailing Address"), (3, "Land Valuation"),
   (4, "Improvement Valuation"), (5, "Market Valuation"), (6, "Appraised Valuation"),
   (7, "Legal Description"), (8, "Land"), (9, "Building Area"), (10, "State Class Code")]

def bldgFieldSteps : List (Nat × String) :=
  [(12, "Year Built"), (13, "Type"), (14, "Impr Sq Ft")]

/-- Every field name `extract_info` defines. -/
def allFieldNames : List String :=
  mainFieldSteps.map (fun pr => pr.2) ++ bldgFieldSteps.map (fun pr => pr.2)

/-- Run the field assignments in order; on an exception stop and return the
fields assigned so far together with `false` (the `except` branch of
`extract_info` returns the partial `info` dict). -/
def extractFields (d : Doc) : List (Nat × String) → Record → Record × Bool
  | [], acc => (acc, true)
  | (i, name) :: rest, acc =>
    match d i with
    | Except.error _ => (acc, false)
    | Except.ok v => extractFields d rest (setField acc name (fieldVal v))

/-- `extract_info(html)` (lines 142-203). -/
def extract_info (d : Doc) : Record :=
  let m := extractFields d mainFieldSteps []
  if m.2 = false then m.1
  else
    match d 11 with
    | Except.error _ => m.1
    | Except.ok none =>
      setField (setField (setField m.1 "Year Built" "N/A") "Type" "N/A") "Impr Sq Ft" "N/A"
    | Except.ok (some _) => (extractFields d bldgFieldSteps m.1).1

/-! ### The orchestrator `run` (`Scraper.py` lines 205-281)

The browser collaborator is modelled by a function from the search address
to `Option Page`: `none` stands for any exception inside the per-address
`try` before a match is clicked (navigation failure, search timeout).  A
`Page` carries the parsed result rows and, optionally, the record document
reached by clicking the best row (`none` there models an exception while
opening or reading the record page; the per-address `except` swallows it
and the loop continues). -/

structure AddressEntry where
  key : String
  searchAddress : String

abbrev Page := List (Option SearchRow) × Option Doc

/-- One iteration of the address loop (lines 214-262): the produced result
record, or `none` when the address is skipped — search failure, no
confident match (lines 256-258 just `continue`), or a failure after the
match.  On success the record is `extract_info` plus the three identifying
fields, in assignment order. -/
def processAddress (search : String → Option Page) (e : AddressEntry) : Option Record :=
  match search e.searchAddress with
  | none => none
  | some (rows, odoc) =>
    match find_best_match e.searchAddress rows with
    | none => none
    | some idx =>
      match rows.get? idx, odoc with
      | some orow, some doc =>
        let account :=
          match orow with
          | some row => row.accountText
          | none => "N/A"
        some (setField (setField (setField (extract_info doc) "Account Number" account)
          "Search Keyword" e.searchAddress) "Realnex Key" e.key)
      | _, _ => none

/-- The loop of lines 214-262 with its growing `results` list. -/
def runAux (search : String → Option Page) : List AddressEntry → List Record → List Record
  | [], acc => acc
  | e :: rest, acc =>
    match processAddress search e with
    | none => runAux search rest acc
    | some r => runAux search rest (acc ++ [r])

/-- `run`'s aggregation: the sequence of result records it collects. -/
def run (search : String → Option Page) (es : List AddressEntry) : List Record :=
  runAux search es []

/-- String-level normalizer, §4.1 of the spec (lines 12-23 of the source). -/
def normalizeStr (s : String) : String := ⟨normalize s.data⟩

/-! ### Specification predicates used by the proofs -/

/-- Well-behavedness of a tail matcher (`fmTail1`/`fmTail2`): a successful
match strictly consumes input, captures a nonempty run of digits, leaves a
suffix of the input, and only fires when the input starts with `m`. -/
def TailsOk (tails : List Char → Option (List Char × List Char)) : Prop :=
  ∀ cs ds rest, tails cs = some (ds, rest) →
    rest.length < cs.length ∧ ds ≠ [] ∧ (∀ c ∈ ds, isDigitChar c = true) ∧
      rest <:+ cs ∧ cs.head? = some 'm'

/-- The continuation of pattern 1 after the digit group: `\s*` has been
consumed, what remains must be `r`, an optional `d`, and a boundary.  Split
out of `fmTail1` so the proofs can reason about it in isolation. -/
def fmTail1After (ds r4 : List Char) : Option (List Char × List Char) :=
  match r4 with
  | [] => none
  | c2 :: r5 =>
    if c2 = 'r' then
      if r5.head? = some 'd' then
        if boundaryOk r5.tail then some (ds, r5.tail)
        else if boundaryOk r5 then some (ds, r5) else none
      else if boundaryOk r5 then some (ds, r5) else none
    else none

/-- No run of two whitespace characters and no trailing whitespace. -/
def goodSpaces : List Char → Bool
  | [] => true
  | c :: cs =>
    if isSpaceChar c then
      (match cs with
       | [] => false
       | d :: _ => !isSpaceChar d) && goodSpaces cs
    else goodSpaces cs

/-- The shape `' '.join(non-whitespace words)` has: no leading whitespace, no
double or trailing whitespace, and every whitespace character is `' '`. -/
def Collapsed (l : List Char) : Prop :=
  (∀ c, l.head? = some c → isSpaceChar c = false) ∧ goodSpaces l = true ∧
    ∀ c ∈ l, isSpaceChar c = true → c = ' '

/-! ## Helper lemmas: records and the field extractor -/

theorem getField_nil (n : String) : getField [] n = none := rfl

theorem getField_cons (pr : String × String) (t : Record) (n : String) :
    getField (pr :: t) n = if pr.1 = n then some pr.2 else getField t n := by
  by_cases h : pr.1 = n
  · simp [getField, List.find?, h]
  · have hb : (pr.1 == n) = false := by simpa using h
    simp [getField, List.find?, hb, h]

theorem getField_setField_self (r : Record) (k v : String) :
    getField (setField r k v) k = some v := by
  induction r with
  | nil => simp [setField, getField_cons]
  | cons pr t ih =>
    by_cases h : pr.1 = k
    · simp [setField, h, getField_cons]
    · simp [setField, h, getField_cons, ih]

theorem getField_setField_ne (r : Record) (k v k' : String) (h : k' ≠ k) :
    getField (setField r k v) k' = getField r k' := by
  induction r with
  | nil => simp [setField, getField_cons, getField_nil, Ne.symm h]
  | cons pr t ih =>
    by_cases hpk : pr.1 = k
    · rw [show setField (pr :: t) k v = (k, v) :: t from by simp [setField, hpk]]
      rw [getField_cons, getField_cons, if_neg (Ne.symm h), if_neg (hpk ▸ Ne.symm h)]
    · rw [show setField (pr :: t) k v = pr :: setField t k v from by simp [setField, hpk]]
      rw [getField_cons, getField_cons, ih]

theorem getField_setField_isSome (r : Record) (k v n : String)
    (h : (getField r n).isSome = true) :
    (getField (setField r k v) n).isSome = true := by
  by_cases hn : n = k
  · subst hn; simp [getField_setField_self]
  · rwa [getField_setField_ne _ _ _ _ hn]

theorem extractFields_preserve (d : Doc) (steps : List (Nat × String)) :
    ∀ (acc : Record) (n : String), (getField acc n).isSome = true →
      (getField (extractFields d steps acc).1 n).isSome = true := by
  induction steps with
  | nil => intro acc n h; simpa [extractFields] using h
  | cons s rest ih =>
    intro acc n h
    obtain ⟨i, name⟩ := s
    cases hd : d i with
    | error e => simpa [extractFields, hd] using h
    | ok v => simpa [extractFields, hd] using ih _ _ (getField_setField_isSome _ _ _ _ h)

theorem extractFields_untouched (d : Doc) (steps : List (Nat × String)) :
    ∀ (acc : Record) (n : String), n ∉ steps.map (fun pr => pr.2) →
      getField (extractFields d steps acc).1 n = getField acc n := by
  induction steps with
  | nil => intro acc n _; simp [extractFields]
  | cons s rest ih =>
    intro acc n h
    obtain ⟨i, name⟩ := s
    simp only [List.map_cons, List.mem_cons, not_or] at h
    cases hd : d i with
    | error e => simp [extractFields, hd]
    | ok v =>
      rw [extractFields, hd]
      simp only
      rw [ih _ _ h.2, getField_setField_ne _ _ _ _ h.1]

theorem extractFields_names (d : Doc) (hd : ∀ i, d i ≠ Except.error ())
    (steps : List (Nat × String)) :
    ∀ (acc : Record) (nm : String), nm ∈ steps.map (fun pr => pr.2) →
      (getField (extractFields d steps acc).1 nm).isSome = true := by
  induction steps with
  | nil => intro acc nm h; simp at h
  | cons s rest ih =>
    intro acc nm h
    obtain ⟨i, name⟩ := s
    cases hdi : d i with
    | error e => exact absurd hdi (by cases e; exact hd i)
    | ok v =>
      simp only [List.map_cons, List.mem_cons] at h
      rcases h with h | h
      · subst h
        rw [extractFields, hdi]
        exact extractFields_preserve _ _ _ _ (by simp [getField_setField_self])
      · rw [extractFields, hdi]
        exact ih _ _ h

theorem extractFields_na (d : Doc) (hd : ∀ i, d i ≠ Except.error ())
    (steps : List (Nat × String)) (hnd : (steps.map (fun pr => pr.2)).Nodup) :
    ∀ (acc : Record) (i : Nat) (nm : String), (i, nm) ∈ steps → d i = Except.ok none →
      getField (extractFields d steps acc).1 nm = some "N/A" := by
  induction steps with
  | nil => intro acc i nm h _; simp at h
  | cons s rest ih =>
    intro acc i nm h hnone
    obtain ⟨j, name⟩ := s
    simp only [List.map_cons, List.nodup_cons] at hnd
    rcases List.mem_cons.mp h with h | h
    · obtain ⟨rfl, rfl⟩ := Prod.mk.injEq .. ▸ h
      rw [extractFields, hnone]
      have hni : nm ∉ rest.map (fun pr => pr.2) := by
        intro hmem; exact hnd.1 (by simpa using hmem)
      rw [extractFields_untouched _ _ _ _ hni, getField_setField_self]
      rfl
    · cases hdj : d j with
      | error e => exact absurd hdj (by cases e; exact hd j)
      | ok v =>
        rw [extractFields, hdj]
        exact ih hnd.2 _ _ _ h hnone

theorem extractFields_ok (d : Doc) (hd : ∀ i, d i ≠ Except.error ())
    (steps : List (Nat × String)) :
    ∀ acc : Record, (extractFields d steps acc).2 = true := by
  induction steps with
  | nil => intro acc; simp [extractFields]
  | cons s rest ih =>
    intro acc
    obtain ⟨i, name⟩ := s
    cases hdi : d i with
    | error e => exact absurd hdi (by cases e; exact hd i)
    | ok v => rw [extractFields, hdi]; exact ih _

/-! ## Helper lemmas: the ranker loop -/

theorem rowScore_nil (q : String) (k : Nat) : rowScore q [] k = none := by
  cases k <;> rfl

theorem find_best_match_eq (q : String) (rows : List (Option SearchRow)) :
    find_best_match q rows =
      if 3/5 < (fbmGo q 0 0 none rows).1 ∧ (fbmGo q 0 0 none rows).2.isSome = true
      then (fbmGo q 0 0 none rows).2 else none := rfl

theorem rowScore_zero (q : String) (r : Option SearchRow) (rs : List (Option SearchRow)) :
    rowScore q (r :: rs) 0 = entryScore q r := rfl

theorem rowScore_succ (q : String) (r : Option SearchRow) (rs : List (Option SearchRow))
    (k : Nat) : rowScore q (r :: rs) (k + 1) = rowScore q rs k := rfl

/-- Invariant of the `find_best_match` loop: the final best ratio dominates
the initial one and every row score; and either no update happened (state
returned unchanged) or the final state points at a row whose score equals the
final ratio, strictly exceeds the initial ratio, and strictly exceeds every
earlier row's score (updates use strict `>`). -/
theorem fbmGo_spec (q : String) :
    ∀ (rs : List (Option SearchRow)) (i : Nat) (b : ℚ) (o : Option Nat),
      b ≤ (fbmGo q i b o rs).1 ∧
      (∀ k sc, rowScore q rs k = some sc → sc ≤ (fbmGo q i b o rs).1) ∧
      (((fbmGo q i b o rs).1 = b ∧ (fbmGo q i b o rs).2 = o) ∨
        ∃ k, rowScore q rs k = some (fbmGo q i b o rs).1 ∧
          (fbmGo q i b o rs).2 = some (i + k) ∧ b < (fbmGo q i b o rs).1 ∧
          ∀ k' sc', k' < k → rowScore q rs k' = some sc' →
            sc' < (fbmGo q i b o rs).1) := by
  intro rs
  induction rs with
  | nil =>
    intro i b o
    refine ⟨le_refl _, ?_, Or.inl ⟨rfl, rfl⟩⟩
    intro k sc h
    rw [rowScore_nil] at h
    cases h
  | cons r rs ih =>
    intro i b o
    cases he : entryScore q r with
    | none =>
      have hg : fbmGo q i b o (r :: rs) = fbmGo q (i + 1) b o rs := by
        simp [fbmGo, he]
      obtain ⟨ih1, ih2, ih3⟩ := ih (i + 1) b o
      rw [hg]
      refine ⟨ih1, ?_, ?_⟩
      · intro k sc h
        cases k with
        | zero => rw [rowScore_zero, he] at h; cases h
        | succ k => exact ih2 k sc (by rwa [rowScore_succ] at h)
      · rcases ih3 with ⟨h1, h2⟩ | ⟨k, hk1, hk2, hk3, hk4⟩
        · exact Or.inl ⟨h1, h2⟩
        · refine Or.inr ⟨k + 1, by rwa [rowScore_succ], ?_, hk3, ?_⟩
          · rw [hk2]; congr 1; omega
          · intro k' sc' hlt h
            cases k' with
            | zero => rw [rowScore_zero, he] at h; cases h
            | succ k' => exact hk4 k' sc' (by omega) (by rwa [rowScore_succ] at h)
    | some sc =>
      by_cases hlt : b < sc
      · have hg : fbmGo q i b o (r :: rs) = fbmGo q (i + 1) sc (some i) rs := by
          simp [fbmGo, he, hlt]
        obtain ⟨ih1, ih2, ih3⟩ := ih (i + 1) sc (some i)
        rw [hg]
        refine ⟨le_of_lt (lt_of_lt_of_le hlt ih1), ?_, ?_⟩
        · intro k sc' h
          cases k with
          | zero =>
            rw [rowScore_zero, he] at h
            injection h with h
            exact h ▸ ih1
          | succ k => exact ih2 k sc' (by rwa [rowScore_succ] at h)
        · rcases ih3 with ⟨h1, h2⟩ | ⟨k, hk1, hk2, hk3, hk4⟩
          · refine Or.inr ⟨0, ?_, ?_, by rw [h1]; exact hlt, ?_⟩
            · rw [rowScore_zero, he, h1]
            · simp [h2]
            · intro k' sc' hlt' _
              exact absurd hlt' (Nat.not_lt_zero _)
          · refine Or.inr ⟨k + 1, by rwa [rowScore_succ], ?_, lt_trans hlt hk3, ?_⟩
            · rw [hk2]; congr 1; omega
            · intro k' sc' hlt' h
              cases k' with
              | zero =>
                rw [rowScore_zero, he] at h
                injection h with h
                exact h ▸ hk3
              | succ k' => exact hk4 k' sc' (by omega) (by rwa [rowScore_succ] at h)
      · have hg : fbmGo q i b o (r :: rs) = fbmGo q (i + 1) b o rs := by
          simp [fbmGo, he, hlt]
        obtain ⟨ih1, ih2, ih3⟩ := ih (i + 1) b o
        rw [hg]
        refine ⟨ih1, ?_, ?_⟩
        · intro k sc' h
          cases k with
          | zero =>
            rw [rowScore_zero, he] at h
            injection h with h
            exact h ▸ le_trans (not_lt.mp hlt) ih1
          | succ k => exact ih2 k sc' (by rwa [rowScore_succ] at h)
        · rcases ih3 with ⟨h1, h2⟩ | ⟨k, hk1, hk2, hk3, hk4⟩
          · exact Or.inl ⟨h1, h2⟩
          · refine Or.inr ⟨k + 1, by rwa [rowScore_succ], ?_, hk3, ?_⟩
            · rw [hk2]; congr 1; omega
            · intro k' sc' hlt' h
              cases k' with
              | zero =>
                rw [rowScore_zero, he] at h
                injection h with h
                exact h ▸ lt_of_le_of_lt (not_lt.mp hlt) hk3
              | succ k' => exact hk4 k' sc' (by omega) (by rwa [rowScore_succ] at h)

/-! ## Helper lemmas: token sets are nonempty iff a non-space char exists -/

theorem wordsAux_ne_nil (l : List Char) : ∀ acc, acc ≠ [] → wordsAux l acc ≠ [] := by
  induction l with
  | nil =>
    intro acc h
    have : acc.isEmpty = false := by
      cases acc with
      | nil => exact absurd rfl h
      | cons a t => rfl
    simp [wordsAux, this]
  | cons c cs ih =>
    intro acc h
    by_cases hc : isSpaceChar c
    · have : acc.isEmpty = false := by
        cases acc with
        | nil => exact absurd rfl h
        | cons a t => rfl
      simp [wordsAux, hc, this]
    · simpa [wordsAux, hc] using ih (c :: acc) (by simp)

theorem words_eq_nil_iff (l : List Char) : words l = [] ↔ l.all isSpaceChar = true := by
  induction l with
  | nil => simp [words, wordsAux]
  | cons c cs ih =>
    by_cases hc : isSpaceChar c
    · simpa [words, wordsAux, hc] using ih
    · constructor
      · intro h
        exact absurd h (by simpa [words, wordsAux, hc] using wordsAux_ne_nil cs [c] (by simp))
      · intro h
        simp only [List.all_cons, Bool.and_eq_true] at h
        exact absurd h.1 hc

theorem subWordF_keeps_nonspace (ab full : List Char)
    (hfull : ∃ c ∈ full, isSpaceChar c = false) :
    ∀ (n : Nat) (p : Bool) (l : List Char), (∃ c ∈ l, isSpaceChar c = false) →
      ∃ c ∈ subWordF ab full n p l, isSpaceChar c = false := by
  intro n
  induction n with
  | zero => intro p l h; simpa [subWordF] using h
  | succ n ih =>
    intro p l h
    cases l with
    | nil => simp [subWordF] at h
    | cons c cs =>
      rw [subWordF]
      split
      · obtain ⟨x, hx, hxs⟩ := hfull
        exact ⟨x, List.mem_append_left _ hx, hxs⟩
      · obtain ⟨x, hx, hxs⟩ := h
        rcases List.mem_cons.mp hx with rfl | hx'
        · exact ⟨x, List.mem_cons_self _ _, hxs⟩
        · obtain ⟨y, hy, hys⟩ := ih (isWordChar c) cs ⟨x, hx', hxs⟩
          exact ⟨y, List.mem_cons_of_mem _ hy, hys⟩

theorem applyReplacements_keeps_nonspace (l : List Char)
    (h : ∃ c ∈ l, isSpaceChar c = false) :
    ∃ c ∈ applyReplacements l, isSpaceChar c = false := by
  simp only [applyReplacements, replacementTable, List.foldl, subWord]
  exact subWordF_keeps_nonspace _ _ (by decide) _ _ _
    (subWordF_keeps_nonspace _ _ (by decide) _ _ _
      (subWordF_keeps_nonspace _ _ (by decide) _ _ _
        (subWordF_keeps_nonspace _ _ (by decide) _ _ _
          (subWordF_keeps_nonspace _ _ (by decide) _ _ _
            (subWordF_keeps_nonspace _ _ (by decide) _ _ _ h)))))

theorem tokenSet_ne_nil_iff (l : List Char) : tokenSet l ≠ [] ↔ words l ≠ [] := by
  unfold tokenSet
  constructor
  · intro h hw; exact h (by rw [hw]; rfl)
  · intro h hd; exact h ((List.dedup_eq_nil _).mp hd)

theorem words_ne_nil_nonspace (l : List Char) :
    words l ≠ [] ↔ ∃ c ∈ l, isSpaceChar c = false := by
  rw [← not_iff_not]
  push_neg
  rw [words_eq_nil_iff, List.all_eq_true]
  constructor
  · intro h c hc
    simpa using h c hc
  · intro h c hc
    simpa using h c hc

theorem abbrev_tokenSet_ne_nil (l : List Char) (h : tokenSet l ≠ []) :
    tokenSet (applyReplacements l) ≠ [] := by
  rw [tokenSet_ne_nil_iff, words_ne_nil_nonspace]
  exact applyReplacements_keeps_nonspace l
    ((words_ne_nil_nonspace l).mp ((tokenSet_ne_nil_iff l).mp h))

/-- Bounds on an intersection-over-query ratio with nonempty query set. -/
theorem ratio_bounds (a b : List (List Char)) (h : a ≠ []) :
    0 ≤ (interCount a b : ℚ) / (a.length : ℚ) ∧
      (interCount a b : ℚ) / (a.length : ℚ) ≤ 1 := by
  have hpos : 0 < (a.length : ℚ) := by
    have : a.length ≠ 0 := fun hl => h (List.length_eq_zero.mp hl)
    exact_mod_cast Nat.pos_of_ne_zero this
  constructor
  · exact div_nonneg (Nat.cast_nonneg _) (Nat.cast_nonneg _)
  · rw [div_le_one hpos]
    exact_mod_cast List.length_filter_le _ a

/-! ## Helper lemmas: the fm-rewrite scanner (towards idempotence of `normalize`) -/

theorem fmTail2_ok : TailsOk fmTail2 := by
  intro cs ds rest h
  cases cs with
  | nil => exact absurd h (by simp [fmTail2])
  | cons c r1 =>
    simp only [fmTail2] at h
    split at h
    case isFalse => cases h
    case isTrue hc =>
      subst hc
      split at h
      case isTrue => cases h
      case isFalse hne =>
        split at h
        case isFalse => cases h
        case isTrue hb =>
          rw [Option.some.injEq, Prod.mk.injEq] at h
          obtain ⟨rfl, rfl⟩ := h
          have hsuf : (r1.dropWhile isSpaceChar).dropWhile isDigitChar <:+ r1 :=
            (List.dropWhile_suffix _).trans (List.dropWhile_suffix _)
          refine ⟨?_, ?_, ?_, hsuf.trans (List.suffix_cons _ _), rfl⟩
          · have := hsuf.length_le
            simp only [List.length_cons]
            omega
          · intro hnil
            exact hne (by rw [hnil]; rfl)
          · intro c hc
            exact List.mem_takeWhile_imp hc

theorem fmTail1_ok : TailsOk fmTail1 := by
  intro cs ds rest h
  cases cs with
  | nil => exact absurd h (by simp [fmTail1])
  | cons c r1 =>
    simp only [fmTail1] at h
    split at h
    case isFalse => cases h
    case isTrue hc =>
      subst hc
      split at h
      case isTrue => cases h
      case isFalse hne =>
        have hne' : (r1.dropWhile isSpaceChar).takeWhile isDigitChar ≠ [] := by
          intro hnil
          exact hne (by rw [hnil]; rfl)
        have hdig : ∀ c ∈ (r1.dropWhile isSpaceChar).takeWhile isDigitChar,
            isDigitChar c = true := fun c hc => List.mem_takeWhile_imp hc
        have hsuf4 : ((r1.dropWhile isSpaceChar).dropWhile isDigitChar).dropWhile
            isSpaceChar <:+ r1 :=
          (List.dropWhile_suffix _).trans
            ((List.dropWhile_suffix _).trans (List.dropWhile_suffix _))
        split at h
        case h_1 => cases h
        case h_2 c2 r5 heq =>
          split at h
          case isFalse => cases h
          case isTrue hc2 =>
            subst hc2
            have hr5 : r5 <:+ r1 := by
              have : r5 <:+ 'r' :: r5 := List.suffix_cons _ _
              rw [← heq] at this
              exact this.trans hsuf4
            have hlen5 : r5.length < r1.length + 1 := by
              have := hr5.length_le
              omega
            split at h
            · split at h
              case isTrue hb =>
                rw [Option.some.injEq, Prod.mk.injEq] at h
                obtain ⟨rfl, rfl⟩ := h
                have htl : r5.tail <:+ r5 := List.tail_suffix r5
                refine ⟨?_, hne', hdig, (htl.trans hr5).trans (List.suffix_cons _ _), rfl⟩
                have := htl.length_le
                simp only [List.length_cons]
                omega
              case isFalse =>
                split at h
                case isFalse => cases h
                case isTrue hb2 =>
                  rw [Option.some.injEq, Prod.mk.injEq] at h
                  obtain ⟨rfl, rfl⟩ := h
                  refine ⟨?_, hne', hdig, hr5.trans (List.suffix_cons _ _), rfl⟩
                  simp only [List.length_cons]
                  omega
            · split at h
              case isFalse => cases h
              case isTrue hb2 =>
                rw [Option.some.injEq, Prod.mk.injEq] at h
                obtain ⟨rfl, rfl⟩ := h
                refine ⟨?_, hne', hdig, hr5.trans (List.suffix_cons _ _), rfl⟩
                simp only [List.length_cons]
                omega

theorem fmScanF_cons (t : List Char → Option (List Char × List Char))
    (n : Nat) (p : Bool) (c : Char) (cs : List Char) :
    fmScanF t (n + 1) p (c :: cs) =
      if p = false ∧ c = 'f' then
        match t cs with
        | some (ds, rest) => ftm ++ ds ++ fmScanF t n true rest
        | none => c :: fmScanF t n true cs
      else c :: fmScanF t n (isWordChar c) cs := rfl

theorem fmScanF_irrel (t : List Char → Option (List Char × List Char))
    (ht : ∀ cs ds rest, t cs = some (ds, rest) → rest.length < cs.length) :
    ∀ (n m : Nat) (p : Bool) (l : List Char), l.length ≤ n → l.length ≤ m →
      fmScanF t n p l = fmScanF t m p l := by
  intro n
  induction n with
  | zero =>
    intro m p l hn hm
    have : l = [] := List.length_eq_zero.mp (Nat.le_zero.mp hn)
    subst this
    cases m <;> rfl
  | succ n ih =>
    intro m p l hn hm
    cases l with
    | nil => cases m <;> rfl
    | cons c cs =>
      cases m with
      | zero => simp at hm
      | succ m =>
        simp only [List.length_cons, Nat.succ_le_succ_iff] at hn hm
        rw [fmScanF_cons, fmScanF_cons]
        by_cases hc : p = false ∧ c = 'f'
        · rw [if_pos hc, if_pos hc]
          cases htc : t cs with
          | none =>
            show c :: fmScanF t n true cs = c :: fmScanF t m true cs
            rw [ih m true cs hn hm]
          | some pr =>
            obtain ⟨ds, rest⟩ := pr
            have hl := ht cs ds rest htc
            show ftm ++ ds ++ fmScanF t n true rest = ftm ++ ds ++ fmScanF t m true rest
            rw [ih m true rest (by omega) (by omega)]
        · rw [if_neg hc, if_neg hc, ih m (isWordChar c) cs hn hm]

theorem fmScan_nil (t : List Char → Option (List Char × List Char)) (p : Bool) :
    fmScan t p [] = [] := rfl

theorem fmScan_emit (t : List Char → Option (List Char × List Char)) (p : Bool)
    (c : Char) (cs : List Char) (h : p = true ∨ c ≠ 'f') :
    fmScan t p (c :: cs) = c :: fmScan t (isWordChar c) cs := by
  have hcond : ¬(p = false ∧ c = 'f') := by
    rcases h with h | h <;> simp [h]
  unfold fmScan
  rw [show (c :: cs).length = cs.length + 1 from rfl, fmScanF_cons, if_neg hcond]

theorem fmScan_fail (t : List Char → Option (List Char × List Char)) (p : Bool)
    (cs : List Char) (h : t cs = none) :
    fmScan t p ('f' :: cs) = 'f' :: fmScan t true cs := by
  cases p with
  | true =>
    rw [fmScan_emit t true 'f' cs (Or.inl rfl)]
    rw [show isWordChar 'f' = true from by decide]
  | false =>
    unfold fmScan
    rw [show ('f' :: cs).length = cs.length + 1 from rfl, fmScanF_cons,
      if_pos (⟨rfl, rfl⟩ : false = false ∧ 'f' = 'f'), h]

theorem fmScan_match (t : List Char → Option (List Char × List Char))
    (ht : ∀ cs ds rest, t cs = some (ds, rest) → rest.length < cs.length)
    (cs ds rest : List Char) (h : t cs = some (ds, rest)) :
    fmScan t false ('f' :: cs) = ftm ++ ds ++ fmScan t true rest := by
  unfold fmScan
  rw [show ('f' :: cs).length = cs.length + 1 from rfl, fmScanF_cons,
    if_pos (⟨rfl, rfl⟩ : false = false ∧ 'f' = 'f'), h]
  show ftm ++ ds ++ fmScanF t cs.length true rest = ftm ++ ds ++ fmScanF t rest.length true rest
  rw [fmScanF_irrel t ht cs.length rest.length true rest (le_of_lt (ht _ _ _ h))
    (le_refl _)]

theorem space_char_cases (c : Char) (h : isSpaceChar c = true) :
    c = ' ' ∨ c = '\t' ∨ c = '\n' ∨ c = '\x0b' ∨ c = '\x0c' ∨ c = '\r' := by
  simp only [isSpaceChar, Bool.or_eq_true, beq_iff_eq] at h
  tauto

theorem space_ne_f (c : Char) (h : isSpaceChar c = true) : c ≠ 'f' := by
  rcases space_char_cases c h with rfl | rfl | rfl | rfl | rfl | rfl <;> decide

theorem space_not_word (c : Char) (h : isSpaceChar c = true) : isWordChar c = false := by
  rcases space_char_cases c h with rfl | rfl | rfl | rfl | rfl | rfl <;> decide

theorem digit_ne_f (c : Char) (h : isDigitChar c = true) : c ≠ 'f' := by
  intro hc
  subst hc
  exact absurd h (by decide)

theorem digit_word (c : Char) (h : isDigitChar c = true) : isWordChar c = true := by
  simp [isWordChar, h]

theorem digit_not_space (c : Char) (h : isDigitChar c = true) : isSpaceChar c = false := by
  have h' := of_decide_eq_true h
  rcases hs : isSpaceChar c with hv | hv
  · rfl
  · rcases space_char_cases c hs with rfl | rfl | rfl | rfl | rfl | rfl <;>
      exact absurd h (by decide)

theorem fmScan_head (t : List Char → Option (List Char × List Char))
    (hok : TailsOk t) (p : Bool) (l : List Char) :
    (fmScan t p l).head? = l.head? := by
  cases l with
  | nil => rfl
  | cons c cs =>
    by_cases hc : p = false ∧ c = 'f'
    · obtain ⟨rfl, rfl⟩ := hc
      cases ht : t cs with
      | none => rw [fmScan_fail t false cs ht]; rfl
      | some pr =>
        obtain ⟨ds, rest⟩ := pr
        rw [fmScan_match t (fun a b c h => (hok a b c h).1) cs ds rest ht]
        rfl
    · have hor : p = true ∨ c ≠ 'f' := by
        by_cases hcf : c = 'f'
        · subst hcf
          cases p with
          | false => exact absurd ⟨rfl, rfl⟩ hc
          | true => exact Or.inl rfl
        · exact Or.inr hcf
      rw [fmScan_emit t p c cs hor]
      rfl

theorem fmScan_ne_nil (t : List Char → Option (List Char × List Char))
    (hok : TailsOk t) (p : Bool) (l : List Char) (h : l ≠ []) :
    fmScan t p l ≠ [] := by
  intro hnil
  have := fmScan_head t hok p l
  rw [hnil] at this
  cases l with
  | nil => exact h rfl
  | cons c cs => cases this

theorem mem_fmScan (t : List Char → Option (List Char × List Char))
    (hok : TailsOk t) :
    ∀ (n : Nat) (p : Bool) (l : List Char), l.length ≤ n →
      ∀ c ∈ fmScan t p l, c ∈ l ∨ c ∈ ftm ∨ isDigitChar c = true := by
  intro n
  induction n with
  | zero =>
    intro p l hn c hc
    have : l = [] := List.length_eq_zero.mp (Nat.le_zero.mp hn)
    subst this
    cases hc
  | succ n ih =>
    intro p l hn c hc
    cases l with
    | nil => cases hc
    | cons c0 cs =>
      simp only [List.length_cons, Nat.succ_le_succ_iff] at hn
      by_cases hb : p = false ∧ c0 = 'f'
      · obtain ⟨rfl, rfl⟩ := hb
        cases ht : t cs with
        | none =>
          rw [fmScan_fail t false cs ht] at hc
          rcases List.mem_cons.mp hc with rfl | hc'
          · exact Or.inl (List.mem_cons_self _ _)
          · rcases ih true cs hn c hc' with h | h
            · exact Or.inl (List.mem_cons_of_mem _ h)
            · exact Or.inr h
        | some pr =>
          obtain ⟨ds, rest⟩ := pr
          rw [fmScan_match t (fun a b c h => (hok a b c h).1) cs ds rest ht] at hc
          obtain ⟨hlen, hne, hdig, hsuf, hhead⟩ := hok cs ds rest ht
          rcases List.mem_append.mp hc with hc' | hc'
          · rcases List.mem_append.mp hc' with hf | hd
            · exact Or.inr (Or.inl hf)
            · exact Or.inr (Or.inr (hdig c hd))
          · rcases ih true rest (by omega) c hc' with h | h
            · exact Or.inl (List.mem_cons_of_mem _ (hsuf.sublist.subset h))
            · exact Or.inr h
      · have hor : p = true ∨ c0 ≠ 'f' := by
          by_cases hcf : c0 = 'f'
          · subst hcf
            cases p with
            | false => exact absurd ⟨rfl, rfl⟩ hb
            | true => exact Or.inl rfl
          · exact Or.inr hcf
        rw [fmScan_emit t p c0 cs hor] at hc
        rcases List.mem_cons.mp hc with rfl | hc'
        · exact Or.inl (List.mem_cons_self _ _)
        · rcases ih (isWordChar c0) cs hn c hc' with h | h
          · exact Or.inl (List.mem_cons_of_mem _ h)
          · exact Or.inr h

/-- Scanning a run of non-`f` characters copies it; the boundary state after
the run is the wordness of its last character. -/
theorem fmScan_run_nonf (t : List Char → Option (List Char × List Char)) :
    ∀ (u z : List Char) (p : Bool), (∀ c ∈ u, c ≠ 'f') →
      fmScan t p (u ++ z) =
        u ++ fmScan t (u.foldl (fun _ c => isWordChar c) p) z := by
  intro u
  induction u with
  | nil => intro z p _; simp
  | cons c u' ih =>
    intro z p hu
    rw [List.cons_append, fmScan_emit t p c _ (Or.inr (hu c (List.mem_cons_self _ _)))]
    rw [ih z (isWordChar c) (fun d hd => hu d (List.mem_cons_of_mem _ hd))]
    rfl

theorem foldl_state_spaces (sp : List Char) (p : Bool)
    (h : ∀ c ∈ sp, isSpaceChar c = true) :
    sp.foldl (fun _ c => isWordChar c) p = if sp.isEmpty then p else false := by
  induction sp generalizing p with
  | nil => rfl
  | cons s sp' ih =>
    rw [List.foldl_cons, ih (isWordChar s) (fun d hd => h d (List.mem_cons_of_mem _ hd))]
    rw [space_not_word s (h s (List.mem_cons_self _ _))]
    cases sp' <;> rfl

theorem foldl_state_digits (ds : List Char) (p : Bool)
    (h : ∀ c ∈ ds, isDigitChar c = true) :
    ds.foldl (fun _ c => isWordChar c) p = if ds.isEmpty then p else true := by
  induction ds generalizing p with
  | nil => rfl
  | cons s ds' ih =>
    rw [List.foldl_cons, ih (isWordChar s) (fun d hd => h d (List.mem_cons_of_mem _ hd))]
    rw [digit_word s (h s (List.mem_cons_self _ _))]
    cases ds' <;> rfl

/-- Scanning a run of whitespace copies it and resets the boundary state. -/
theorem fmScan_run_spaces (t : List Char → Option (List Char × List Char))
    (sp z : List Char) (p : Bool) (h : ∀ c ∈ sp, isSpaceChar c = true) :
    fmScan t p (sp ++ z) = sp ++ fmScan t (if sp.isEmpty then p else false) z := by
  rw [fmScan_run_nonf t sp z p (fun c hc => space_ne_f c (h c hc)),
    foldl_state_spaces sp p h]

/-- Scanning a run of digits copies it; after a nonempty run the boundary
state is `true`. -/
theorem fmScan_run_digits (t : List Char → Option (List Char × List Char))
    (ds z : List Char) (p : Bool) (h : ∀ c ∈ ds, isDigitChar c = true) :
    fmScan t p (ds ++ z) = ds ++ fmScan t (if ds.isEmpty then p else true) z := by
  rw [fmScan_run_nonf t ds z p (fun c hc => digit_ne_f c (h c hc)),
    foldl_state_digits ds p h]

theorem tails_none_of_head (t : List Char → Option (List Char × List Char))
    (hok : TailsOk t) (l : List Char) (h : l.head? ≠ some 'm') : t l = none := by
  cases ht : t l with
  | none => rfl
  | some pr =>
    obtain ⟨ds, rest⟩ := pr
    exact absurd (hok l ds rest ht).2.2.2.2 h

/-- Scanning the replacement text `"farm to market "` copies it; the state
after its trailing blank is `false`. -/
theorem fmScan_ftm (t : List Char → Option (List Char × List Char))
    (hok : TailsOk t) (p : Bool) (z : List Char) :
    fmScan t p (ftm ++ z) = ftm ++ fmScan t false z := by
  have hft : ftm = 'f' :: "arm to market ".data := rfl
  rw [hft, List.cons_append]
  have hnone : t ("arm to market ".data ++ z) = none := by
    apply tails_none_of_head t hok
    intro hh
    cases hh
  rw [fmScan_fail t p _ hnone]
  rw [fmScan_run_nonf t "arm to market ".data z true (by decide)]
  rw [show ("arm to market ".data.foldl (fun _ c => isWordChar c) true) = false
    from by decide]
  simp

theorem takeWhile_all_append {α : Type} (p : α → Bool) (a b : List α)
    (h : ∀ c ∈ a, p c = true) : (a ++ b).takeWhile p = a ++ b.takeWhile p := by
  induction a with
  | nil => simp
  | cons x a' ih =>
    rw [List.cons_append, List.takeWhile_cons, h x (List.mem_cons_self _ _)]
    rw [ih (fun c hc => h c (List.mem_cons_of_mem _ hc))]
    simp

theorem dropWhile_all_append {α : Type} (p : α → Bool) (a b : List α)
    (h : ∀ c ∈ a, p c = true) : (a ++ b).dropWhile p = b.dropWhile p := by
  induction a with
  | nil => simp
  | cons x a' ih =>
    rw [List.cons_append, List.dropWhile_cons, h x (List.mem_cons_self _ _)]
    rw [ih (fun c hc => h c (List.mem_cons_of_mem _ hc))]
    simp

theorem takeWhile_head_false {α : Type} (p : α → Bool) (l : List α) (x : α)
    (hh : l.head? = some x) (hp : p x = false) : l.takeWhile p = [] := by
  cases l with
  | nil => cases hh
  | cons c cs =>
    injection hh with hh
    subst hh
    rw [List.takeWhile_cons, hp]
    simp

theorem takeWhile_head_true {α : Type} (p : α → Bool) (l : List α) (x : α)
    (hh : l.head? = some x) (hp : p x = true) : l.takeWhile p ≠ [] := by
  cases l with
  | nil => cases hh
  | cons c cs =>
    injection hh with hh
    subst hh
    rw [List.takeWhile_cons, hp]
    simp

theorem dropWhile_head_false {α : Type} (p : α → Bool) (l : List α) (x : α)
    (hh : l.head? = some x) (hp : p x = false) : l.dropWhile p = l := by
  cases l with
  | nil => cases hh
  | cons c cs =>
    injection hh with hh
    subst hh
    rw [List.dropWhile_cons, hp]
    simp

theorem dropWhile_cons_head {α : Type} (p : α → Bool) :
    ∀ (l : List α) (c : α) (r : List α), l.dropWhile p = c :: r → p c = false := by
  intro l
  induction l with
  | nil => intro c r h; cases h
  | cons a t ih =>
    intro c r h
    rw [List.dropWhile_cons] at h
    by_cases hp : p a = true
    · rw [if_pos hp] at h
      exact ih c r h
    · rw [if_neg hp] at h
      injection h with h1 h2
      subst h1
      exact Bool.eq_false_iff.mpr hp

/-- Canonical decomposition of a scan over `spaces ++ digits ++ rest`. -/
theorem fmScan_sdr (t : List Char → Option (List Char × List Char))
    (r1 : List Char) (p : Bool) :
    fmScan t p r1 =
      r1.takeWhile isSpaceChar ++
        ((r1.dropWhile isSpaceChar).takeWhile isDigitChar ++
          fmScan t
            (if ((r1.dropWhile isSpaceChar).takeWhile isDigitChar).isEmpty
             then (if (r1.takeWhile isSpaceChar).isEmpty then p else false) else true)
            ((r1.dropWhile isSpaceChar).dropWhile isDigitChar)) := by
  conv_lhs => rw [← List.takeWhile_append_dropWhile (p := isSpaceChar) (l := r1)]
  rw [fmScan_run_spaces t _ _ p (fun c hc => List.mem_takeWhile_imp hc)]
  congr 1
  conv_lhs =>
    rw [← List.takeWhile_append_dropWhile (p := isDigitChar) (l := r1.dropWhile isSpaceChar)]
  rw [fmScan_run_digits t _ _ _ (fun c hc => List.mem_takeWhile_imp hc)]

theorem fmTail2_eval (r : List Char) :
    fmTail2 ('m' :: r) =
      if ((r.dropWhile isSpaceChar).takeWhile isDigitChar).isEmpty then none
      else if boundaryOk ((r.dropWhile isSpaceChar).dropWhile isDigitChar) then
        some ((r.dropWhile isSpaceChar).takeWhile isDigitChar,
          (r.dropWhile isSpaceChar).dropWhile isDigitChar)
      else none := rfl

theorem fmTail2_none_of_head (l : List Char) (x : Char) (hh : l.head? = some x)
    (hx : x ≠ 'm') : fmTail2 l = none := by
  cases l with
  | nil => rfl
  | cons c cs =>
    injection hh with hh
    subst hh
    simp [fmTail2, hx]

theorem fmTail1_none_of_head (l : List Char) (x : Char) (hh : l.head? = some x)
    (hx : x ≠ 'm') : fmTail1 l = none := by
  cases l with
  | nil => rfl
  | cons c cs =>
    injection hh with hh
    subst hh
    simp [fmTail1, hx]

theorem takeWhile_all {α : Type} (p : α → Bool) (a : List α)
    (h : ∀ c ∈ a, p c = true) : a.takeWhile p = a := by
  have := takeWhile_all_append p a [] h
  simpa using this

theorem dropWhile_all {α : Type} (p : α → Bool) (a : List α)
    (h : ∀ c ∈ a, p c = true) : a.dropWhile p = [] := by
  have := dropWhile_all_append p a [] h
  simpa using this

theorem boundaryOk_eq_of_head (l l2 : List Char) (h : l.head? = l2.head?) :
    boundaryOk l = boundaryOk l2 := by
  cases l with
  | nil =>
    cases l2 with
    | nil => rfl
    | cons c cs => cases h
  | cons c cs =>
    cases l2 with
    | nil => cases h
    | cons d ds =>
      injection h with h
      subst h
      rfl

/-- The scanner commutes with splitting off a maximal run of a character
class that excludes `f`: the run is copied verbatim, and the remainder of
the output is a scan (from some state) of the remainder of the input. -/
theorem scan_dropWhile_run (t : List Char → Option (List Char × List Char))
    (hok : TailsOk t) (P : Char → Bool) (hPf : ∀ c, P c = true → c ≠ 'f')
    (q : Bool) (l : List Char) :
    (fmScan t q l).takeWhile P = l.takeWhile P ∧
      ∃ q2, (fmScan t q l).dropWhile P = fmScan t q2 (l.dropWhile P) := by
  have ha : ∀ c ∈ l.takeWhile P, P c = true := fun c hc => List.mem_takeWhile_imp hc
  have hrun : fmScan t q l =
      l.takeWhile P ++ fmScan t ((l.takeWhile P).foldl (fun _ c => isWordChar c) q)
        (l.dropWhile P) := by
    conv_lhs => rw [← List.takeWhile_append_dropWhile (p := P) (l := l)]
    exact fmScan_run_nonf t _ _ q (fun c hc => hPf c (ha c hc))
  cases hb : l.dropWhile P with
  | nil =>
    rw [hrun, hb, fmScan_nil, List.append_nil]
    refine ⟨takeWhile_all P _ ha, q, ?_⟩
    rw [dropWhile_all P _ ha, fmScan_nil]
  | cons x xr =>
    have hx : P x = false := dropWhile_cons_head P l x xr hb
    have hW : (fmScan t ((l.takeWhile P).foldl (fun _ c => isWordChar c) q)
        (l.dropWhile P)).head? = some x := by
      rw [fmScan_head t hok, hb]
      rfl
    constructor
    · rw [hrun, takeWhile_all_append P _ _ ha,
        takeWhile_head_false P _ x hW hx, List.append_nil]
    · refine ⟨(l.takeWhile P).foldl (fun _ c => isWordChar c) q, ?_⟩
      rw [hrun, dropWhile_all_append P _ _ ha, dropWhile_head_false P _ x hW hx, hb]

/-- A failed pattern-2 match stays failed after any scan pass: the scanner
only rewrites at `f` positions, the characters pattern 2 examines are never
`f`, and replacements begin with `f`, which cannot complete the pattern at
any examined position. -/
theorem fmTail2_fail_preserved (t : List Char → Option (List Char × List Char))
    (hok : TailsOk t) (p : Bool) (cs : List Char)
    (h : fmTail2 cs = none) : fmTail2 (fmScan t p cs) = none := by
  cases cs with
  | nil => rfl
  | cons c r1 =>
    by_cases hm : c = 'm'
    case neg =>
      refine fmTail2_none_of_head _ c ?_ hm
      rw [fmScan_head t hok]
      rfl
    case pos =>
      subst hm
      rw [fmScan_emit t p 'm' r1 (Or.inr (by decide)),
        show isWordChar 'm' = true from by decide]
      obtain ⟨hA1, q1, hB1⟩ :=
        scan_dropWhile_run t hok isSpaceChar (fun c hc => space_ne_f c hc) true r1
      obtain ⟨hA2, q2, hB2⟩ :=
        scan_dropWhile_run t hok isDigitChar (fun c hc => digit_ne_f c hc) q1
          (r1.dropWhile isSpaceChar)
      rw [fmTail2_eval] at h ⊢
      rw [hB1, hA2, hB2]
      rw [boundaryOk_eq_of_head _ _ (fmScan_head t hok q2 _)]
      by_cases hde : ((r1.dropWhile isSpaceChar).takeWhile isDigitChar).isEmpty = true
      · rw [hde] at h ⊢
        simp
      · have hde2 : ((r1.dropWhile isSpaceChar).takeWhile isDigitChar).isEmpty = false :=
          Bool.eq_false_iff.mpr hde
        rw [hde2] at h ⊢
        simp only [Bool.false_eq_true, if_false] at h ⊢
        by_cases hbd : boundaryOk ((r1.dropWhile isSpaceChar).dropWhile isDigitChar) = true
        · rw [hbd] at h
          simp at h
        · have hbd2 : boundaryOk ((r1.dropWhile isSpaceChar).dropWhile isDigitChar) = false :=
            Bool.eq_false_iff.mpr hbd
          rw [hbd2]
          simp

theorem boundaryOk_cons (c : Char) (l : List Char) :
    boundaryOk (c :: l) = !isWordChar c := rfl

theorem fmTail1_eval (r : List Char) :
    fmTail1 ('m' :: r) =
      if ((r.dropWhile isSpaceChar).takeWhile isDigitChar).isEmpty then none
      else
        fmTail1After ((r.dropWhile isSpaceChar).takeWhile isDigitChar)
          (((r.dropWhile isSpaceChar).dropWhile isDigitChar).dropWhile isSpaceChar) := rfl

theorem fmTail1After_fail_preserved (t : List Char → Option (List Char × List Char))
    (hok : TailsOk t) (q : Bool) (ds ds2 r4 : List Char)
    (h : fmTail1After ds r4 = none) : fmTail1After ds2 (fmScan t q r4) = none := by
  cases r4 with
  | nil => rw [fmScan_nil]; rfl
  | cons c2 r5 =>
    by_cases hc2 : c2 = 'r'
    case neg =>
      cases hV : fmScan t q (c2 :: r5) with
      | nil =>
        have hh := fmScan_head t hok q (c2 :: r5)
        rw [hV] at hh
        cases hh
      | cons v vr =>
        have hh := fmScan_head t hok q (c2 :: r5)
        rw [hV, List.head?_cons, List.head?_cons] at hh
        injection hh with hh
        subst hh
        simp [fmTail1After, hc2]
    case pos =>
      subst hc2
      rw [fmScan_emit t q 'r' r5 (Or.inr (by decide)),
        show isWordChar 'r' = true from by decide]
      by_cases hd5 : r5.head? = some 'd'
      · obtain ⟨r6, rfl⟩ : ∃ r6, r5 = 'd' :: r6 := by
          cases r5 with
          | nil => simp at hd5
          | cons a r6 =>
            rw [List.head?_cons] at hd5
            injection hd5 with hd5
            exact ⟨r6, by rw [hd5]⟩
        rw [fmScan_emit t true 'd' r6 (Or.inr (by decide)),
          show isWordChar 'd' = true from by decide]
        have hb6 : boundaryOk r6 = false := by
          by_cases hb : boundaryOk r6 = true
          · exfalso
            simp [fmTail1After, hb] at h
          · exact Bool.eq_false_iff.mpr hb
        have hbX : boundaryOk (fmScan t true r6) = false := by
          rw [boundaryOk_eq_of_head _ _ (fmScan_head t hok true r6)]
          exact hb6
        simp [fmTail1After, hbX, boundaryOk_cons, show isWordChar 'd' = true from by decide]
      · have hb5 : boundaryOk r5 = false := by
          by_cases hb : boundaryOk r5 = true
          · exfalso
            simp [fmTail1After, hd5, hb] at h
          · exact Bool.eq_false_iff.mpr hb
        have hW5h : (fmScan t true r5).head? = r5.head? := fmScan_head t hok true r5
        have hbW : boundaryOk (fmScan t true r5) = false := by
          rw [boundaryOk_eq_of_head _ _ hW5h]
          exact hb5
        simp [fmTail1After, hW5h, hd5, hbW]

/-- A failed pattern-1 match stays failed after any scan pass. -/
theorem fmTail1_fail_preserved (t : List Char → Option (List Char × List Char))
    (hok : TailsOk t) (p : Bool) (cs : List Char)
    (h : fmTail1 cs = none) : fmTail1 (fmScan t p cs) = none := by
  cases cs with
  | nil => rfl
  | cons c r1 =>
    by_cases hm : c = 'm'
    case neg =>
      refine fmTail1_none_of_head _ c ?_ hm
      rw [fmScan_head t hok]
      rfl
    case pos =>
      subst hm
      rw [fmScan_emit t p 'm' r1 (Or.inr (by decide)),
        show isWordChar 'm' = true from by decide]
      obtain ⟨hA1, q1, hB1⟩ :=
        scan_dropWhile_run t hok isSpaceChar (fun c hc => space_ne_f c hc) true r1
      obtain ⟨hA2, q2, hB2⟩ :=
        scan_dropWhile_run t hok isDigitChar (fun c hc => digit_ne_f c hc) q1
          (r1.dropWhile isSpaceChar)
      obtain ⟨hA3, q3, hB3⟩ :=
        scan_dropWhile_run t hok isSpaceChar (fun c hc => space_ne_f c hc) q2
          ((r1.dropWhile isSpaceChar).dropWhile isDigitChar)
      rw [fmTail1_eval] at h ⊢
      rw [hB1, hA2, hB2, hB3]
      by_cases hde : ((r1.dropWhile isSpaceChar).takeWhile isDigitChar).isEmpty = true
      · rw [hde] at h ⊢
        simp
      · have hde2 : ((r1.dropWhile isSpaceChar).takeWhile isDigitChar).isEmpty = false :=
          Bool.eq_false_iff.mpr hde
        rw [hde2] at h ⊢
        simp only [Bool.false_eq_true, if_false] at h ⊢
        exact fmTail1After_fail_preserved t hok q3 _ _ _ h

/-- One `re.sub` pass is idempotent: replacements introduce no new match
and failed positions stay failed. -/
theorem fmScan_idem (t : List Char → Option (List Char × List Char))
    (hok : TailsOk t) (hF : ∀ p cs, t cs = none → t (fmScan t p cs) = none) :
    ∀ (n : Nat) (l : List Char) (p : Bool), l.length ≤ n →
      fmScan t p (fmScan t p l) = fmScan t p l := by
  intro n
  induction n with
  | zero =>
    intro l p h
    rw [List.length_eq_zero.mp (Nat.le_zero.mp h)]
    rfl
  | succ n ih =>
    intro l p h
    cases l with
    | nil => rfl
    | cons c cs =>
      simp only [List.length_cons, Nat.succ_le_succ_iff] at h
      by_cases hpf : p = false ∧ c = 'f'
      · obtain ⟨rfl, rfl⟩ := hpf
        cases ht : t cs with
        | none =>
          rw [fmScan_fail t false cs ht, fmScan_fail t false _ (hF true cs ht),
            ih cs true h]
        | some pr =>
          obtain ⟨ds, rest⟩ := pr
          obtain ⟨hlen, hne, hdig, hsuf, hhead⟩ := hok cs ds rest ht
          rw [fmScan_match t (fun a b c hh => (hok a b c hh).1) cs ds rest ht]
          rw [List.append_assoc, fmScan_ftm t hok false _,
            fmScan_run_digits t ds _ false hdig]
          have hdse : ds.isEmpty = false := by
            cases ds with
            | nil => exact absurd rfl hne
            | cons a l => rfl
          rw [hdse]
          simp only [Bool.false_eq_true, if_false]
          rw [ih rest true (by omega)]
      · have hor : p = true ∨ c ≠ 'f' := by
          by_cases hcf : c = 'f'
          · subst hcf
            cases p with
            | false => exact absurd ⟨rfl, rfl⟩ hpf
            | true => exact Or.inl rfl
          · exact Or.inr hcf
        rw [fmScan_emit t p c cs hor, fmScan_emit t p c _ hor,
          ih cs (isWordChar c) h]

theorem fmTail2_some_decomp (cs ds rest : List Char) (h : fmTail2 cs = some (ds, rest)) :
    ∃ r1, cs = 'm' :: r1 ∧ ds = (r1.dropWhile isSpaceChar).takeWhile isDigitChar ∧
      rest = (r1.dropWhile isSpaceChar).dropWhile isDigitChar := by
  cases cs with
  | nil => exact absurd h (by simp [fmTail2])
  | cons c r1 =>
    by_cases hc : c = 'm'
    · subst hc
      refine ⟨r1, rfl, ?_⟩
      rw [fmTail2_eval] at h
      split at h
      · cases h
      · split at h
        · rw [Option.some.injEq, Prod.mk.injEq] at h
          exact ⟨h.1.symm, h.2.symm⟩
        · cases h
    · exact absurd h (by rw [fmTail2_none_of_head (c :: r1) c rfl hc]; simp)

/-- The pattern-2 pass preserves freedom from pattern-1 matches. -/
theorem fmScan_cross :
    ∀ (n : Nat) (l : List Char) (p : Bool), l.length ≤ n →
      fmScan fmTail1 p l = l →
      fmScan fmTail1 p (fmScan fmTail2 p l) = fmScan fmTail2 p l := by
  intro n
  induction n with
  | zero =>
    intro l p h hc
    rw [List.length_eq_zero.mp (Nat.le_zero.mp h)]
    rfl
  | succ n ih =>
    intro l p h hc
    cases l with
    | nil => rfl
    | cons c cs =>
      simp only [List.length_cons, Nat.succ_le_succ_iff] at h
      by_cases hpf : p = false ∧ c = 'f'
      · obtain ⟨rfl, rfl⟩ := hpf
        have ht1 : fmTail1 cs = none := by
          cases ht : fmTail1 cs with
          | none => rfl
          | some pr =>
            obtain ⟨ds1, rest1⟩ := pr
            exfalso
            have hm := (fmTail1_ok cs ds1 rest1 ht).2.2.2.2
            rw [fmScan_match fmTail1 (fun a b c hh => (fmTail1_ok a b c hh).1)
              cs ds1 rest1 ht] at hc
            have hc' : 'f' :: ("arm to market ".data ++ (ds1 ++ fmScan fmTail1 true rest1)) =
                'f' :: cs := by
              rw [← hc]
              simp [ftm]
            injection hc' with _ hc'
            rw [← hc'] at hm
            cases hm
        have hclean_cs : fmScan fmTail1 true cs = cs := by
          rw [fmScan_fail fmTail1 false cs ht1] at hc
          simpa using hc
        cases ht2 : fmTail2 cs with
        | none =>
          rw [fmScan_fail fmTail2 false cs ht2]
          rw [fmScan_fail fmTail1 false _
            (fmTail1_fail_preserved fmTail2 fmTail2_ok true cs ht1)]
          rw [ih cs true h hclean_cs]
        | some pr =>
          obtain ⟨ds, rest⟩ := pr
          obtain ⟨hlen2, hne2, hdig2, hsuf2, hhead2⟩ := fmTail2_ok cs ds rest ht2
          rw [fmScan_match fmTail2 (fun a b c hh => (fmTail2_ok a b c hh).1) cs ds rest ht2]
          obtain ⟨r1, rfl, hds, hrest⟩ := fmTail2_some_decomp cs ds rest ht2
          have hclean_rest : fmScan fmTail1 true rest = rest := by
            rw [fmScan_emit fmTail1 true 'm' r1 (Or.inr (by decide)),
              show isWordChar 'm' = true from by decide] at hclean_cs
            rw [fmScan_sdr fmTail1 r1 true] at hclean_cs
            have hds0e : ((r1.dropWhile isSpaceChar).takeWhile isDigitChar).isEmpty
                = false := by
              rw [← hds]
              cases ds with
              | nil => exact absurd rfl hne2
              | cons a l => rfl
            rw [hds0e] at hclean_cs
            simp only [Bool.false_eq_true, if_false] at hclean_cs
            injection hclean_cs with _ hclean_cs
            have hr1eq : r1.takeWhile isSpaceChar ++
                ((r1.dropWhile isSpaceChar).takeWhile isDigitChar ++
                  (r1.dropWhile isSpaceChar).dropWhile isDigitChar) = r1 := by
              rw [List.takeWhile_append_dropWhile, List.takeWhile_append_dropWhile]
            conv at hclean_cs => rhs; rw [← hr1eq]
            have h1 := List.append_cancel_left hclean_cs
            have h2 := List.append_cancel_left h1
            rw [hrest]
            exact h2
          rw [List.append_assoc, fmScan_ftm fmTail1 fmTail1_ok false _,
            fmScan_run_digits fmTail1 ds _ false hdig2]
          have hdse : ds.isEmpty = false := by
            cases ds with
            | nil => exact absurd rfl hne2
            | cons a l => rfl
          rw [hdse]
          simp only [Bool.false_eq_true, if_false]
          rw [ih rest true (by omega) hclean_rest]
      · have hor : p = true ∨ c ≠ 'f' := by
          by_cases hcf : c = 'f'
          · subst hcf
            cases p with
            | false => exact absurd ⟨rfl, rfl⟩ hpf
            | true => exact Or.inl rfl
          · exact Or.inr hcf
        rw [fmScan_emit fmTail1 p c cs hor] at hc
        injection hc with _ hc
        rw [fmScan_emit fmTail2 p c cs hor, fmScan_emit fmTail1 p c _ hor,
          ih cs (isWordChar c) h hc]

/-- `normalize_fm` is idempotent. -/
theorem normalize_fm_idem (l : List Char) :
    normalize_fm (normalize_fm l) = normalize_fm l := by
  unfold normalize_fm
  have hF1 : ∀ p cs, fmTail1 cs = none → fmTail1 (fmScan fmTail1 p cs) = none :=
    fun p cs h => fmTail1_fail_preserved fmTail1 fmTail1_ok p cs h
  have hF2 : ∀ p cs, fmTail2 cs = none → fmTail2 (fmScan fmTail2 p cs) = none :=
    fun p cs h => fmTail2_fail_preserved fmTail2 fmTail2_ok p cs h
  have hu : fmScan fmTail1 false (fmScan fmTail1 false l) = fmScan fmTail1 false l :=
    fmScan_idem fmTail1 fmTail1_ok hF1 l.length l false (le_refl _)
  have hy1 : fmScan fmTail1 false (fmScan fmTail2 false (fmScan fmTail1 false l)) =
      fmScan fmTail2 false (fmScan fmTail1 false l) :=
    fmScan_cross (fmScan fmTail1 false l).length _ false (le_refl _) hu
  have hy2 : fmScan fmTail2 false (fmScan fmTail2 false (fmScan fmTail1 false l)) =
      fmScan fmTail2 false (fmScan fmTail1 false l) :=
    fmScan_idem fmTail2 fmTail2_ok hF2
      (fmScan fmTail1 false l).length (fmScan fmTail1 false l) false (le_refl _)
  rw [hy1, hy2]

/-! ## Helper lemmas: lower-casing and whitespace collapse -/

theorem lowerChar_toNat (c : Char) (h : 65 ≤ c.toNat ∧ c.toNat ≤ 90) :
    (lowerChar c).toNat = c.toNat + 32 := by
  unfold lowerChar
  rw [if_pos h]
  unfold Char.ofNat
  rw [dif_pos (Or.inl (by omega))]
  rfl

theorem lowerChar_fix (c : Char) (h : ¬(65 ≤ c.toNat ∧ c.toNat ≤ 90)) :
    lowerChar c = c := by
  unfold lowerChar
  rw [if_neg h]

theorem lowerChar_idem (c : Char) : lowerChar (lowerChar c) = lowerChar c := by
  by_cases h : 65 ≤ c.toNat ∧ c.toNat ≤ 90
  · have := lowerChar_toNat c h
    exact lowerChar_fix _ (by omega)
  · rw [lowerChar_fix c h, lowerChar_fix c h]

theorem lowerChar_space (c : Char) (h : isSpaceChar c = true) : lowerChar c = c := by
  rcases space_char_cases c h with rfl | rfl | rfl | rfl | rfl | rfl <;> decide

theorem lowerChar_of_digit (c : Char) (h : isDigitChar c = true) : lowerChar c = c := by
  have h' := of_decide_eq_true h
  exact lowerChar_fix c (by omega)

theorem head?_mem {α : Type} (l : List α) (c : α) (h : l.head? = some c) : c ∈ l := by
  cases l with
  | nil => cases h
  | cons a t =>
    injection h with h
    subst h
    exact List.mem_cons_self _ _

theorem map_fix {α : Type} (f : α → α) :
    ∀ l : List α, (∀ c ∈ l, f c = c) → l.map f = l := by
  intro l
  induction l with
  | nil => intro _; rfl
  | cons a t ih =>
    intro h
    rw [List.map_cons, h a (List.mem_cons_self _ _),
      ih (fun c hc => h c (List.mem_cons_of_mem _ hc))]

/-! words and unwords -/

theorem wordsAux_good : ∀ (l acc : List Char), (∀ c ∈ acc, isSpaceChar c = false) →
    ∀ w ∈ wordsAux l acc, w ≠ [] ∧ ∀ c ∈ w, isSpaceChar c = false := by
  intro l
  induction l with
  | nil =>
    intro acc hacc w hw
    by_cases ha : acc.isEmpty = true
    · simp [wordsAux, ha] at hw
    · simp only [wordsAux, ha, Bool.false_eq_true, if_false, List.mem_singleton] at hw
      subst hw
      constructor
      · simp only [ne_eq, List.reverse_eq_nil_iff]
        intro hnil
        rw [hnil] at ha
        exact ha rfl
      · intro c hc
        exact hacc c (List.mem_reverse.mp hc)
  | cons c cs ih =>
    intro acc hacc w hw
    by_cases hc : isSpaceChar c = true
    · by_cases ha : acc.isEmpty = true
      · rw [show wordsAux (c :: cs) acc = wordsAux cs [] from by simp [wordsAux, hc, ha]] at hw
        exact ih [] (by simp) w hw
      · rw [show wordsAux (c :: cs) acc = acc.reverse :: wordsAux cs [] from by
          simp [wordsAux, hc, ha]] at hw
        rcases List.mem_cons.mp hw with rfl | hw'
        · constructor
          · simp only [ne_eq, List.reverse_eq_nil_iff]
            intro hnil
            rw [hnil] at ha
            exact ha rfl
          · intro d hd
            exact hacc d (List.mem_reverse.mp hd)
        · exact ih [] (by simp) w hw'
    · rw [show wordsAux (c :: cs) acc = wordsAux cs (c :: acc) from by
        simp [wordsAux, hc]] at hw
      refine ih (c :: acc) ?_ w hw
      intro d hd
      rcases List.mem_cons.mp hd with rfl | hd'
      · exact Bool.eq_false_iff.mpr hc
      · exact hacc d hd'

theorem words_good (l : List Char) :
    ∀ w ∈ words l, w ≠ [] ∧ ∀ c ∈ w, isSpaceChar c = false :=
  wordsAux_good l [] (by simp)

theorem wordsAux_mem_chars : ∀ (l acc : List Char) (w : List Char), w ∈ wordsAux l acc →
    ∀ c ∈ w, c ∈ l ∨ c ∈ acc := by
  intro l
  induction l with
  | nil =>
    intro acc w hw c hc
    by_cases ha : acc.isEmpty = true
    · simp [wordsAux, ha] at hw
    · simp only [wordsAux, ha, Bool.false_eq_true, if_false, List.mem_singleton] at hw
      subst hw
      exact Or.inr (List.mem_reverse.mp hc)
  | cons a t ih =>
    intro acc w hw c hc
    by_cases hs : isSpaceChar a = true
    · by_cases ha : acc.isEmpty = true
      · rw [show wordsAux (a :: t) acc = wordsAux t [] from by simp [wordsAux, hs, ha]] at hw
        rcases ih [] w hw c hc with h | h
        · exact Or.inl (List.mem_cons_of_mem _ h)
        · cases h
      · rw [show wordsAux (a :: t) acc = acc.reverse :: wordsAux t [] from by
          simp [wordsAux, hs, ha]] at hw
        rcases List.mem_cons.mp hw with rfl | hw'
        · exact Or.inr (List.mem_reverse.mp hc)
        · rcases ih [] w hw' c hc with h | h
          · exact Or.inl (List.mem_cons_of_mem _ h)
          · cases h
    · rw [show wordsAux (a :: t) acc = wordsAux t (a :: acc) from by
        simp [wordsAux, hs]] at hw
      rcases ih (a :: acc) w hw c hc with h | h
      · exact Or.inl (List.mem_cons_of_mem _ h)
      · rcases List.mem_cons.mp h with rfl | h'
        · exact Or.inl (List.mem_cons_self _ _)
        · exact Or.inr h'

theorem words_mem_chars (l : List Char) (w : List Char) (hw : w ∈ words l) :
    ∀ c ∈ w, c ∈ l := by
  intro c hc
  rcases wordsAux_mem_chars l [] w hw c hc with h | h
  · exact h
  · cases h

theorem words_cons_space (c : Char) (cs : List Char) (h : isSpaceChar c = true) :
    words (c :: cs) = words cs := by
  simp [words, wordsAux, h]

theorem wordsAux_acc (cs : List Char) : ∀ acc : List Char, acc ≠ [] →
    wordsAux cs acc =
      (acc.reverse ++ cs.takeWhile (fun d => !isSpaceChar d)) ::
        words (cs.dropWhile (fun d => !isSpaceChar d)) := by
  induction cs with
  | nil =>
    intro acc ha
    have he : acc.isEmpty = false := by
      cases acc with
      | nil => exact absurd rfl ha
      | cons a t => rfl
    simp [wordsAux, he, words]
  | cons d ds ih =>
    intro acc ha
    have he : acc.isEmpty = false := by
      cases acc with
      | nil => exact absurd rfl ha
      | cons a t => rfl
    by_cases hd : isSpaceChar d = true
    · rw [show wordsAux (d :: ds) acc = acc.reverse :: wordsAux ds [] from by
        simp [wordsAux, hd, he]]
      rw [show List.takeWhile (fun d => !isSpaceChar d) (d :: ds) = [] from by
        simp [List.takeWhile_cons, hd]]
      rw [show List.dropWhile (fun d => !isSpaceChar d) (d :: ds) = d :: ds from by
        simp [List.dropWhile_cons, hd]]
      rw [words_cons_space d ds hd, List.append_nil]
      rfl
    · rw [show wordsAux (d :: ds) acc = wordsAux ds (d :: acc) from by
        simp [wordsAux, hd]]
      rw [ih (d :: acc) (by simp)]
      rw [show List.takeWhile (fun d => !isSpaceChar d) (d :: ds) =
        d :: ds.takeWhile (fun d => !isSpaceChar d) from by simp [List.takeWhile_cons, hd]]
      rw [show List.dropWhile (fun d => !isSpaceChar d) (d :: ds) =
        ds.dropWhile (fun d => !isSpaceChar d) from by simp [List.dropWhile_cons, hd]]
      simp

theorem words_word (c : Char) (cs : List Char) (h : isSpaceChar c = false) :
    words (c :: cs) =
      (c :: cs.takeWhile (fun d => !isSpaceChar d)) ::
        words (cs.dropWhile (fun d => !isSpaceChar d)) := by
  rw [show words (c :: cs) = wordsAux cs [c] from by simp [words, wordsAux, h]]
  rw [wordsAux_acc cs [c] (by simp)]
  rfl

theorem unwords_cons_ne (w : List Char) (ws : List (List Char)) (h : ws ≠ []) :
    unwords (w :: ws) = w ++ ' ' :: unwords ws := by
  cases ws with
  | nil => exact absurd rfl h
  | cons w2 ws2 => rfl

theorem mem_unwords : ∀ (ws : List (List Char)) (c : Char), c ∈ unwords ws →
    c = ' ' ∨ ∃ w ∈ ws, c ∈ w := by
  intro ws
  induction ws with
  | nil => intro c hc; cases hc
  | cons w ws' ih =>
    intro c hc
    cases ws' with
    | nil => exact Or.inr ⟨w, List.mem_singleton_self _, hc⟩
    | cons w2 ws2 =>
      rw [unwords_cons_ne w _ (by simp)] at hc
      rcases List.mem_append.mp hc with hc' | hc'
      · exact Or.inr ⟨w, List.mem_cons_self _ _, hc'⟩
      · rcases List.mem_cons.mp hc' with rfl | hc''
        · exact Or.inl rfl
        · rcases ih c hc'' with h | ⟨w', hw', hcw⟩
          · exact Or.inl h
          · exact Or.inr ⟨w', List.mem_cons_of_mem _ hw', hcw⟩

/-! goodSpaces -/

theorem goodSpaces_cons_nonspace (c : Char) (l : List Char) (h : isSpaceChar c = false) :
    goodSpaces (c :: l) = goodSpaces l := by
  simp [goodSpaces, h]

theorem goodSpaces_space_cons_cons (c d : Char) (l : List Char)
    (hc : isSpaceChar c = true) (hd : isSpaceChar d = false) :
    goodSpaces (c :: d :: l) = goodSpaces (d :: l) := by
  simp [goodSpaces, hc, hd]

theorem goodSpaces_space_cons (c d : Char) (dr : List Char) (hc : isSpaceChar c = true) :
    goodSpaces (c :: d :: dr) = (!isSpaceChar d && goodSpaces (d :: dr)) := by
  simp [goodSpaces, hc]

theorem goodSpaces_tail (c : Char) (l : List Char) (h : goodSpaces (c :: l) = true) :
    goodSpaces l = true := by
  by_cases hc : isSpaceChar c = true
  · cases l with
    | nil => rfl
    | cons d dr =>
      rw [goodSpaces_space_cons c d dr hc, Bool.and_eq_true] at h
      exact h.2
  · rwa [goodSpaces_cons_nonspace c l (Bool.eq_false_iff.mpr hc)] at h

theorem goodSpaces_append_right (a b : List Char) (h : goodSpaces (a ++ b) = true) :
    goodSpaces b = true := by
  induction a with
  | nil => exact h
  | cons x a' ih => exact ih (goodSpaces_tail x _ h)

theorem goodSpaces_all_nonspace (l : List Char) (h : ∀ c ∈ l, isSpaceChar c = false) :
    goodSpaces l = true := by
  induction l with
  | nil => rfl
  | cons c t ih =>
    rw [goodSpaces_cons_nonspace c t (h c (List.mem_cons_self _ _))]
    exact ih (fun d hd => h d (List.mem_cons_of_mem _ hd))

theorem goodSpaces_nonspace_append (a b : List Char)
    (ha : ∀ c ∈ a, isSpaceChar c = false) :
    goodSpaces (a ++ b) = goodSpaces b := by
  induction a with
  | nil => rfl
  | cons x a' ih =>
    rw [List.cons_append, goodSpaces_cons_nonspace x _ (ha x (List.mem_cons_self _ _))]
    exact ih (fun c hc => ha c (List.mem_cons_of_mem _ hc))

theorem goodSpaces_space_cons_eval (c : Char) (l : List Char) (hc : isSpaceChar c = true)
    (h : goodSpaces (c :: l) = true) :
    ∃ d dr, l = d :: dr ∧ isSpaceChar d = false ∧ goodSpaces l = true := by
  cases l with
  | nil =>
    rw [show goodSpaces (c :: []) = false from by simp [goodSpaces, hc]] at h
    cases h
  | cons d dr =>
    rw [goodSpaces_space_cons c d dr hc, Bool.and_eq_true] at h
    exact ⟨d, dr, rfl, by simpa using h.1, h.2⟩

theorem goodSpaces_ftm (d0 : Char) (vt : List Char)
    (hd0 : isSpaceChar d0 = false) (hgs : goodSpaces (d0 :: vt) = true) :
    goodSpaces (ftm ++ d0 :: vt) = true := by
  rw [show ftm ++ d0 :: vt =
    'f' :: 'a' :: 'r' :: 'm' :: ' ' :: 't' :: 'o' :: ' ' :: 'm' :: 'a' :: 'r' :: 'k' ::
      'e' :: 't' :: ' ' :: d0 :: vt from rfl]
  rw [goodSpaces_cons_nonspace _ _ (by decide), goodSpaces_cons_nonspace _ _ (by decide),
    goodSpaces_cons_nonspace _ _ (by decide), goodSpaces_cons_nonspace _ _ (by decide)]
  rw [goodSpaces_space_cons _ _ _ (by decide), show isSpaceChar 't' = false from by decide]
  simp only [Bool.not_false, Bool.true_and]
  rw [goodSpaces_cons_nonspace _ _ (by decide), goodSpaces_cons_nonspace _ _ (by decide)]
  rw [goodSpaces_space_cons _ _ _ (by decide), show isSpaceChar 'm' = false from by decide]
  simp only [Bool.not_false, Bool.true_and]
  rw [goodSpaces_cons_nonspace _ _ (by decide), goodSpaces_cons_nonspace _ _ (by decide),
    goodSpaces_cons_nonspace _ _ (by decide), goodSpaces_cons_nonspace _ _ (by decide),
    goodSpaces_cons_nonspace _ _ (by decide), goodSpaces_cons_nonspace _ _ (by decide)]
  rw [goodSpaces_space_cons _ _ _ (by decide), hd0]
  simp only [Bool.not_false, Bool.true_and]
  exact hgs

theorem fmScan_goodSpaces (t : List Char → Option (List Char × List Char))
    (hok : TailsOk t) :
    ∀ (n : Nat) (p : Bool) (l : List Char), l.length ≤ n → goodSpaces l = true →
      goodSpaces (fmScan t p l) = true := by
  intro n
  induction n with
  | zero =>
    intro p l hn _
    rw [List.length_eq_zero.mp (Nat.le_zero.mp hn)]
    rfl
  | succ n ih =>
    intro p l hn hgs
    cases l with
    | nil => rfl
    | cons c cs =>
      simp only [List.length_cons, Nat.succ_le_succ_iff] at hn
      by_cases hb : p = false ∧ c = 'f'
      · obtain ⟨rfl, rfl⟩ := hb
        cases ht : t cs with
        | none =>
          rw [fmScan_fail t false cs ht,
            goodSpaces_cons_nonspace _ _ (by decide)]
          exact ih true cs hn (goodSpaces_tail _ _ hgs)
        | some pr =>
          obtain ⟨ds, rest⟩ := pr
          rw [fmScan_match t (fun a b c h => (hok a b c h).1) cs ds rest ht]
          obtain ⟨hlen, hne, hdig, hsuf, hhead⟩ := hok cs ds rest ht
          have hrest_gs : goodSpaces rest = true := by
            obtain ⟨pre, hpre⟩ := hsuf
            have hcs_gs := goodSpaces_tail 'f' cs hgs
            rw [← hpre] at hcs_gs
            exact goodSpaces_append_right pre rest hcs_gs
          have hO : goodSpaces (fmScan t true rest) = true :=
            ih true rest (by omega) hrest_gs
          have hns : ∀ c ∈ ds, isSpaceChar c = false :=
            fun c hc => digit_not_space c (hdig c hc)
          obtain ⟨d0, ds', rfl⟩ : ∃ d0 ds', ds = d0 :: ds' := by
            cases ds with
            | nil => exact absurd rfl hne
            | cons a b => exact ⟨a, b, rfl⟩
          rw [List.append_assoc, List.cons_append]
          refine goodSpaces_ftm d0 (ds' ++ fmScan t true rest)
            (hns d0 (List.mem_cons_self _ _)) ?_
          rw [← List.cons_append, goodSpaces_nonspace_append _ _ hns]
          exact hO
      · have hor : p = true ∨ c ≠ 'f' := by
          by_cases hcf : c = 'f'
          · subst hcf
            cases p with
            | false => exact absurd ⟨rfl, rfl⟩ hb
            | true => exact Or.inl rfl
          · exact Or.inr hcf
        rw [fmScan_emit t p c cs hor]
        by_cases hcsp : isSpaceChar c = true
        · obtain ⟨d, dr, rfl, hd, hgs_cs⟩ := goodSpaces_space_cons_eval c cs hcsp hgs
          obtain ⟨x0, xr, hx⟩ :
              ∃ x0 xr, fmScan t (isWordChar c) (d :: dr) = x0 :: xr := by
            cases hX : fmScan t (isWordChar c) (d :: dr) with
            | nil => exact absurd hX (fmScan_ne_nil t hok _ _ (by simp))
            | cons a b => exact ⟨a, b, rfl⟩
          have hx0 : x0 = d := by
            have hh := fmScan_head t hok (isWordChar c) (d :: dr)
            rw [hx] at hh
            simpa using hh
          subst hx0
          rw [hx, goodSpaces_space_cons c x0 xr hcsp, hd]
          simp only [Bool.not_false, Bool.true_and]
          rw [← hx]
          exact ih (isWordChar c) (x0 :: dr) hn hgs_cs
        · rw [goodSpaces_cons_nonspace _ _ (Bool.eq_false_iff.mpr hcsp)]
          exact ih (isWordChar c) cs hn (goodSpaces_tail c cs hgs)

theorem fmScan_blanks (t : List Char → Option (List Char × List Char))
    (hok : TailsOk t) (p : Bool) (l : List Char)
    (h : ∀ c ∈ l, isSpaceChar c = true → c = ' ') :
    ∀ c ∈ fmScan t p l, isSpaceChar c = true → c = ' ' := by
  intro c hc hsp
  rcases mem_fmScan t hok l.length p l (le_refl _) c hc with hm | hm | hm
  · exact h c hm hsp
  · have hftm : ∀ d ∈ ftm, isSpaceChar d = true → d = ' ' := by decide
    exact hftm c hm hsp
  · exact absurd hsp (by rw [digit_not_space c hm]; exact Bool.false_ne_true)

theorem fmScan_collapsed (t : List Char → Option (List Char × List Char))
    (hok : TailsOk t) (p : Bool) (l : List Char) (h : Collapsed l) :
    Collapsed (fmScan t p l) := by
  refine ⟨?_, fmScan_goodSpaces t hok l.length p l (le_refl _) h.2.1,
    fmScan_blanks t hok p l h.2.2⟩
  intro c hc
  rw [fmScan_head t hok] at hc
  exact h.1 c hc

theorem unwords_cons_head (w : List Char) (ws : List (List Char)) (hw : w ≠ []) :
    (unwords (w :: ws)).head? = w.head? := by
  cases ws with
  | nil => rfl
  | cons w2 ws2 =>
    rw [unwords_cons_ne w _ (by simp)]
    cases w with
    | nil => exact absurd rfl hw
    | cons cw tw => rfl

theorem unwords_collapsed : ∀ ws : List (List Char),
    (∀ w ∈ ws, w ≠ [] ∧ ∀ c ∈ w, isSpaceChar c = false) → Collapsed (unwords ws) := by
  intro ws
  induction ws with
  | nil =>
    intro _
    refine ⟨?_, rfl, ?_⟩
    · intro c hc
      cases hc
    · intro c hc
      cases hc
  | cons w ws' ih =>
    intro h
    obtain ⟨hwne, hwns⟩ := h w (List.mem_cons_self _ _)
    have h' : ∀ v ∈ ws', v ≠ [] ∧ ∀ c ∈ v, isSpaceChar c = false :=
      fun v hv => h v (List.mem_cons_of_mem _ hv)
    cases ws' with
    | nil =>
      refine ⟨?_, goodSpaces_all_nonspace w hwns, ?_⟩
      · intro c hc
        exact hwns c (head?_mem w c hc)
      · intro c hc hsp
        exact absurd hsp (by rw [hwns c hc]; exact Bool.false_ne_true)
    | cons w2 ws2 =>
      obtain ⟨ih1, ih2, ih3⟩ := ih h'
      obtain ⟨c2, t2, rfl⟩ : ∃ c2 t2, w2 = c2 :: t2 := by
        cases hw2 : w2 with
        | nil => exact absurd hw2 (h' w2 (List.mem_cons_self _ _)).1
        | cons a b => exact ⟨a, b, rfl⟩
      have hc2 : isSpaceChar c2 = false :=
        (h' (c2 :: t2) (List.mem_cons_self _ _)).2 c2 (List.mem_cons_self _ _)
      obtain ⟨cw, tw, rfl⟩ : ∃ cw tw, w = cw :: tw := by
        cases hw : w with
        | nil => exact absurd hw hwne
        | cons a b => exact ⟨a, b, rfl⟩
      obtain ⟨x0, xr, hx⟩ : ∃ x0 xr, unwords ((c2 :: t2) :: ws2) = x0 :: xr := by
        cases hu : unwords ((c2 :: t2) :: ws2) with
        | nil =>
          have hh := unwords_cons_head (c2 :: t2) ws2 (by simp)
          rw [hu] at hh
          cases hh
        | cons a b => exact ⟨a, b, rfl⟩
      have hx0 : x0 = c2 := by
        have hh := unwords_cons_head (c2 :: t2) ws2 (by simp)
        rw [hx] at hh
        simpa using hh
      subst hx0
      rw [unwords_cons_ne _ _ (by simp)]
      refine ⟨?_, ?_, ?_⟩
      · intro c hc
        have hccw : cw = c := by simpa using hc
        rw [← hccw]
        exact hwns cw (List.mem_cons_self _ _)
      · rw [goodSpaces_nonspace_append _ _ hwns, hx,
          goodSpaces_space_cons ' ' x0 xr (by decide), hc2]
        simp only [Bool.not_false, Bool.true_and]
        rw [← hx]
        exact ih2
      · intro c hc hsp
        rcases List.mem_append.mp hc with h1 | h1
        · exact absurd hsp (by rw [hwns c h1]; exact Bool.false_ne_true)
        · rcases List.mem_cons.mp h1 with rfl | h2
          · rfl
          · exact ih3 c h2 hsp

theorem collapse_collapsed (s : List Char) : Collapsed (collapse s) :=
  unwords_collapsed (words (s.map lowerChar)) (words_good _)

theorem unwords_words_collapsed : ∀ (n : Nat) (l : List Char), l.length ≤ n →
    Collapsed l → unwords (words l) = l := by
  intro n
  induction n with
  | zero =>
    intro l hn _
    rw [List.length_eq_zero.mp (Nat.le_zero.mp hn)]
    rfl
  | succ n ih =>
    intro l hn hcol
    obtain ⟨hlead, hgs, hblank⟩ := hcol
    cases l with
    | nil => rfl
    | cons c cs =>
      simp only [List.length_cons, Nat.succ_le_succ_iff] at hn
      have hc : isSpaceChar c = false := hlead c rfl
      rw [words_word c cs hc]
      have hsplit : cs.takeWhile (fun d => !isSpaceChar d) ++
          cs.dropWhile (fun d => !isSpaceChar d) = cs :=
        List.takeWhile_append_dropWhile (fun d => !isSpaceChar d) cs
      cases hdd : cs.dropWhile (fun d => !isSpaceChar d) with
      | nil =>
        have htw : cs.takeWhile (fun d => !isSpaceChar d) = cs := by
          conv_rhs => rw [← hsplit]
          rw [hdd, List.append_nil]
        rw [show words ([] : List Char) = [] from rfl,
          show unwords [c :: cs.takeWhile (fun d => !isSpaceChar d)] =
            c :: cs.takeWhile (fun d => !isSpaceChar d) from rfl, htw]
      | cons d dr =>
        have hd_space : isSpaceChar d = true := by
          simpa using dropWhile_cons_head (fun d => !isSpaceChar d) cs d dr hdd
        have hcs_eq : cs.takeWhile (fun d => !isSpaceChar d) ++ (d :: dr) = cs := by
          rw [← hdd]
          exact hsplit
        have hd_mem : d ∈ c :: cs := by
          rw [← hcs_eq]
          exact List.mem_cons_of_mem _ (List.mem_append_right _ (List.mem_cons_self _ _))
        have hgs_ddr : goodSpaces (d :: dr) = true := by
          have hcs_gs := goodSpaces_tail c cs hgs
          rw [← hcs_eq] at hcs_gs
          exact goodSpaces_append_right _ _ hcs_gs
        obtain ⟨e, er, hdr, he, hgs_dr⟩ :=
          goodSpaces_space_cons_eval d dr hd_space hgs_ddr
        have hdr_col : Collapsed dr := by
          refine ⟨?_, hgs_dr, ?_⟩
          · intro x hxh
            rw [hdr] at hxh
            injection hxh with hx
            subst hx
            exact he
          · intro x hxm hxsp
            refine hblank x ?_ hxsp
            rw [← hcs_eq]
            exact List.mem_cons_of_mem _
              (List.mem_append_right _ (List.mem_cons_of_mem _ hxm))
        have hdr_len : dr.length ≤ n := by
          have := congrArg List.length hcs_eq
          simp only [List.length_append, List.length_cons] at this
          omega
        have hwne : words dr ≠ [] := by
          rw [hdr, words_word e er he]
          simp
        rw [words_cons_space d dr hd_space, unwords_cons_ne _ _ hwne,
          ih dr hdr_len hdr_col]
        have hd_blank : d = ' ' := hblank d hd_mem hd_space
        rw [hd_blank] at hcs_eq
        conv_rhs => rw [← hcs_eq]
        rfl

theorem collapse_chars_fixed (s : List Char) : ∀ c ∈ collapse s, lowerChar c = c := by
  intro c hc
  rcases mem_unwords (words (s.map lowerChar)) c hc with rfl | ⟨w, hw, hcw⟩
  · decide
  · have hmem : c ∈ s.map lowerChar := words_mem_chars _ w hw c hcw
    rcases List.mem_map.mp hmem with ⟨y, _, rfl⟩
    exact lowerChar_idem y

theorem normalize_chars_fixed (s : List Char) : ∀ c ∈ normalize s, lowerChar c = c := by
  have hftm : ∀ d ∈ ftm, lowerChar d = d := by decide
  intro c hc
  have hc' : c ∈ fmScan fmTail2 false (fmScan fmTail1 false (collapse s)) := hc
  rcases mem_fmScan fmTail2 fmTail2_ok (fmScan fmTail1 false (collapse s)).length false
      (fmScan fmTail1 false (collapse s)) (le_refl _) c hc' with h1 | h1 | h1
  · rcases mem_fmScan fmTail1 fmTail1_ok (collapse s).length false (collapse s)
        (le_refl _) c h1 with h2 | h2 | h2
    · exact collapse_chars_fixed s c h2
    · exact hftm c h2
    · exact lowerChar_of_digit c h2
  · exact hftm c h1
  · exact lowerChar_of_digit c h1

theorem normalize_collapsed (s : List Char) : Collapsed (normalize s) :=
  fmScan_collapsed fmTail2 fmTail2_ok false _
    (fmScan_collapsed fmTail1 fmTail1_ok false _ (collapse_collapsed s))

theorem collapse_normalize (s : List Char) : collapse (normalize s) = normalize s := by
  unfold collapse
  rw [map_fix lowerChar _ (normalize_chars_fixed s)]
  exact unwords_words_collapsed (normalize s).length (normalize s) (le_refl _)
    (normalize_collapsed s)

/-! ## Claim theorems -/

/-- Claim C1 (code bug): `extract_numbers` is meant — per its own comment and
the spec — to skip the digit token right after a "farm to market" phrase, but
`words[i-2:i]` is a two-element slice compared against the three-element list
`['farm','to','market']`, so the skip never fires: on the normalization of
"FM 1960" (which is "farm to market 1960") the digit "1960" IS extracted. -/
theorem C1_fm_digit_included :
    normalize "FM 1960".data = "farm to market 1960".data ∧
      extract_numbers (words (normalize "FM 1960".data)) = ["1960".data] := by
  exact ⟨by decide, by decide⟩

/-- Claim C4: if both extracted standalone-number lists are nonempty and no
position holds equal numbers, `similar` returns score 0 immediately. -/
theorem C4_numeric_veto (q c : String)
    (h1 : numsOf q ≠ []) (h2 : numsOf c ≠ [])
    (h3 : ∀ pr ∈ (numsOf q).zip (numsOf c), pr.1 ≠ pr.2) :
    similar q c = some 0 := by
  have e1 : (numsOf q).isEmpty = false := by
    cases hq : numsOf q with
    | nil => exact absurd hq h1
    | cons a l => rfl
  have e2 : (numsOf c).isEmpty = false := by
    cases hq : numsOf c with
    | nil => exact absurd hq h2
    | cons a l => rfl
  have e3 : ((numsOf q).zip (numsOf c)).all (fun pr => !(pr.1 == pr.2)) = true := by
    rw [List.all_eq_true]
    intro pr hpr
    simpa using h3 pr hpr
  have hv : vetoFires q c = true := by
    unfold vetoFires
    rw [e1, e2, e3]
    rfl
  unfold similar
  rw [hv]
  simp

/-- Claim C4 witness: the spec's own example, `score("123 Main St",
"456 Main St") == 0`. -/
theorem C4_witness : similar "123 Main St" "456 Main St" = some 0 :=
  C4_numeric_veto "123 Main St" "456 Main St" (by decide) (by decide) (by decide)

theorem runAux_eq_append (search : String → Option Page) :
    ∀ (es : List AddressEntry) (acc : List Record),
      runAux search es acc = acc ++ es.filterMap (processAddress search) := by
  intro es
  induction es with
  | nil => intro acc; simp [runAux]
  | cons e rest ih =>
    intro acc
    cases hp : processAddress search e with
    | none => simp [runAux, hp, ih]
    | some r => simp [runAux, hp, ih]

/-- Claim C2, refuted as stated: one input address whose single candidate
scores 0 yields an EMPTY output — the unmatched address is silently omitted
(`run` lines 256-258 just `continue`), not recorded with an "unmatched"
marker, so the output does not contain one record per input address. -/
theorem C2_counterexample :
    run (fun _ => some ([some ⟨"1 Somewhere Blvd", "1234567890123"⟩],
        some (fun _ => Except.ok none))) [⟨"K1", "999 Nowhere Ln"⟩] = [] ∧
      ([(⟨"K1", "999 Nowhere Ln"⟩ : AddressEntry)]).length = 1 := by
  constructor
  · have he : entryScore "999 Nowhere Ln"
        (some ⟨"1 Somewhere Blvd", "1234567890123"⟩) = some 0 := by decide
    simp [run, runAux, processAddress, find_best_match, fbmGo, he]
  · rfl

/-- Claim C2, amended: the orchestrator's output has one record per
successfully matched-and-extracted address, in input order; an address with
no match (or any per-address failure) is omitted from the output rather than
recorded with an "unmatched" marker; and since each address is processed
independently, one address's failure never aborts processing of the rest. -/
theorem C2_amended (search : String → Option Page) (es : List AddressEntry) :
    run search es = es.filterMap (processAddress search) := by
  simpa using runAux_eq_append search es []

/-- Claim C3, refuted as stated: a record page whose fourth selector query
raises mid-extraction produces a mapping in which "Land Valuation" (and all
later fields) are missing entirely — the `except` branch of `extract_info`
returns the partial dict, it does not fill the remaining fields with "N/A". -/
theorem C3_counterexample :
    getField (extract_info (fun n => if n < 3 then Except.ok none else Except.error ()))
      "Land Valuation" = none := by decide

/-- Claim C3, amended: when no selector query raises, the mapping returned by
`extract_info` contains every defined field name, and any field whose element
was not found maps to the explicit marker "N/A" — a main field when its own
selector finds nothing, a building field when its selector finds nothing, and
all three building fields when the building-summary component itself is
absent; but when a parse error occurs partway through, only the fields
assigned before the error are present (the later keys are omitted, not
"N/A"). -/
theorem C3_amended (d : Doc) (hd : ∀ i, d i ≠ Except.error ()) :
    (∀ nm ∈ allFieldNames, (getField (extract_info d) nm).isSome = true) ∧
      (∀ i nm, (i, nm) ∈ mainFieldSteps → d i = Except.ok none →
        getField (extract_info d) nm = some "N/A") ∧
      (∀ i nm, (i, nm) ∈ bldgFieldSteps → d i = Except.ok none →
        getField (extract_info d) nm = some "N/A") ∧
      (d 11 = Except.ok none → ∀ i nm, (i, nm) ∈ bldgFieldSteps →
        getField (extract_info d) nm = some "N/A") := by
  have hok : (extractFields d mainFieldSteps []).2 = true := extractFields_ok d hd _ _
  have hmain3 : ∀ nm ∈ mainFieldSteps.map (fun pr => pr.2),
      nm ≠ "Year Built" ∧ nm ≠ "Type" ∧ nm ≠ "Impr Sq Ft" := by decide
  refine ⟨?_, ?_, ?_, ?_⟩
  · intro nm hnm
    rcases List.mem_append.mp hnm with hnm | hnm
    · -- a main field: present after the main pass, preserved by both branches
      have h1 : (getField (extractFields d mainFieldSteps []).1 nm).isSome = true :=
        extractFields_names d hd _ _ _ hnm
      simp only [extract_info, hok, Bool.true_eq_false, if_false]
      cases h11 : d 11 with
      | error e => exact absurd h11 (by cases e; exact hd 11)
      | ok v =>
        cases v with
        | none =>
          exact getField_setField_isSome _ _ _ _ (getField_setField_isSome _ _ _ _
            (getField_setField_isSome _ _ _ _ h1))
        | some t => exact extractFields_preserve _ _ _ _ h1
    · -- a building field: set by both branches
      simp only [extract_info, hok, Bool.true_eq_false, if_false]
      cases h11 : d 11 with
      | error e => exact absurd h11 (by cases e; exact hd 11)
      | ok v =>
        cases v with
        | none =>
          fin_cases hnm
          · exact getField_setField_isSome _ _ _ _ (getField_setField_isSome _ _ _ _
              (by simp [getField_setField_self]))
          · exact getField_setField_isSome _ _ _ _ (by simp [getField_setField_self])
          · simp [getField_setField_self]
        | some t => exact extractFields_names d hd _ _ _ hnm
  · intro i nm hmem hnone
    have hnm : nm ∈ mainFieldSteps.map (fun pr => pr.2) :=
      List.mem_map.mpr ⟨(i, nm), hmem, rfl⟩
    have hna : getField (extractFields d mainFieldSteps []).1 nm = some "N/A" :=
      extractFields_na d hd _ (by decide) _ _ _ hmem hnone
    obtain ⟨hy, ht, hi⟩ := hmain3 nm hnm
    simp only [extract_info, hok, Bool.true_eq_false, if_false]
    cases h11 : d 11 with
    | error e => exact absurd h11 (by cases e; exact hd 11)
    | ok v =>
      cases v with
      | none =>
        rw [getField_setField_ne _ _ _ _ hi, getField_setField_ne _ _ _ _ ht,
          getField_setField_ne _ _ _ _ hy, hna]
      | some t =>
        have : nm ∉ bldgFieldSteps.map (fun pr => pr.2) := by
          simp [bldgFieldSteps, hy, ht, hi]
        rw [extractFields_untouched _ _ _ _ this, hna]
  · intro i nm hmem hnone
    simp only [extract_info, hok, Bool.true_eq_false, if_false]
    cases h11 : d 11 with
    | error e => exact absurd h11 (by cases e; exact hd 11)
    | ok v =>
      cases v with
      | none =>
        fin_cases hmem
        · rw [getField_setField_ne _ _ _ _ (by decide),
            getField_setField_ne _ _ _ _ (by decide), getField_setField_self]
        · rw [getField_setField_ne _ _ _ _ (by decide), getField_setField_self]
        · rw [getField_setField_self]
      | some t =>
        exact extractFields_na d hd bldgFieldSteps (by decide) _ _ _ hmem hnone
  · intro h11 i nm hmem
    simp only [extract_info, hok, Bool.true_eq_false, if_false]
    cases hv : d 11 with
    | error e => exact absurd hv (by cases e; exact hd 11)
    | ok v =>
      cases v with
      | none =>
        fin_cases hmem
        · rw [getField_setField_ne _ _ _ _ (by decide),
            getField_setField_ne _ _ _ _ (by decide), getField_setField_self]
        · rw [getField_setField_ne _ _ _ _ (by decide), getField_setField_self]
        · rw [getField_setField_self]
      | some t =>
        rw [hv] at h11
        injection h11 with h11
        exact Option.noConfusion h11

/-- Claim C5: `find_best_match` returns some row index exactly when the
maximum row score strictly exceeds the 0.6 confidence threshold; the returned
index attains the maximum score, and when every candidate scores at most 0.6
(vacuously so for an empty candidate list) it returns "no match" (`none`). -/
theorem C5_threshold (q : String) (rows : List (Option SearchRow)) :
    (∀ i, find_best_match q rows = some i →
      ∃ sc, rowScore q rows i = some sc ∧ 3/5 < sc ∧
        ∀ j sc', rowScore q rows j = some sc' → sc' ≤ sc) ∧
    (find_best_match q rows = none →
      ∀ j sc', rowScore q rows j = some sc' → sc' ≤ 3/5) := by
  obtain ⟨h1, h2, h3⟩ := fbmGo_spec q rows 0 0 none
  constructor
  · intro i hi
    rw [find_best_match_eq] at hi
    split at hi
    case isTrue hc =>
      rcases h3 with ⟨hb, ho⟩ | ⟨k, hk1, hk2, hk3, hk4⟩
      · rw [ho] at hi; cases hi
      · rw [hk2] at hi
        injection hi with hi
        refine ⟨(fbmGo q 0 0 none rows).1, ?_, hc.1, fun j sc' h => h2 j sc' h⟩
        rw [← hi]
        simpa using hk1
    case isFalse => cases hi
  · intro hn j sc' h
    rw [find_best_match_eq] at hn
    split at hn
    case isTrue hc =>
      rw [hn] at hc
      simp at hc
    case isFalse hc =>
      by_cases hlt : 3/5 < (fbmGo q 0 0 none rows).1
      · exfalso
        have hnone : (fbmGo q 0 0 none rows).2 = none := by
          cases ho : (fbmGo q 0 0 none rows).2 with
          | none => rfl
          | some v => exact absurd ⟨hlt, by rw [ho]; rfl⟩ hc
        rcases h3 with ⟨hb, ho⟩ | ⟨k, hk1, hk2, hk3, hk4⟩
        · rw [hb] at hlt
          norm_num at hlt
        · rw [hk2] at hnone; cases hnone
      · exact le_trans (h2 j sc' h) (not_lt.mp hlt)

/-- Claim C5 witness: a single candidate identical to the query scores 1,
which exceeds the threshold, so its index is returned and is maximal. -/
theorem C5_witness :
    find_best_match "100 Oak Rd" [some ⟨"100 Oak Rd", "1234567890123"⟩] = some 0 ∧
      ∃ sc, rowScore "100 Oak Rd" [some ⟨"100 Oak Rd", "1234567890123"⟩] 0 = some sc ∧
        3/5 < sc ∧ ∀ j sc',
          rowScore "100 Oak Rd" [some ⟨"100 Oak Rd", "1234567890123"⟩] j = some sc' →
            sc' ≤ sc := by
  have hs : similar "100 Oak Rd" "100 Oak Rd" = some 1 := by
    have hv : vetoFires "100 Oak Rd" "100 Oak Rd" = false := by decide
    have hb : baseScore "100 Oak Rd" "100 Oak Rd" = 1 := by
      unfold baseScore
      rw [show interCount (tokenSet (normalize "100 Oak Rd".data))
            (tokenSet (normalize "100 Oak Rd".data)) = 3 from by decide,
          show (tokenSet (normalize "100 Oak Rd".data)).length = 3 from by decide]
      norm_num
    rw [similar, hv, hb]
    norm_num [show tokenSet (normalize "100 Oak Rd".data) ≠ [] from by decide]
  have he : entryScore "100 Oak Rd" (some ⟨"100 Oak Rd", "1234567890123"⟩) = some 1 := by
    simp [entryScore, show validAccount "1234567890123" = true from by decide, hs]
  have hf : find_best_match "100 Oak Rd" [some ⟨"100 Oak Rd", "1234567890123"⟩] = some 0 := by
    simp [find_best_match, fbmGo, he]
    norm_num
  exact ⟨hf, (C5_threshold "100 Oak Rd" [some ⟨"100 Oak Rd", "1234567890123"⟩]).1 0 hf⟩

/-- Claim C6: on ties the earliest candidate wins — whenever
`find_best_match` returns index `i`, every valid candidate strictly before
`i` scores strictly less than candidate `i` (the running maximum is updated
only on strictly greater scores). -/
theorem C6_tiebreak (q : String) (rows : List (Option SearchRow)) (i : Nat)
    (hi : find_best_match q rows = some i) :
    ∀ j, j < i → ∀ scj sci, rowScore q rows j = some scj →
      rowScore q rows i = some sci → scj < sci := by
  obtain ⟨h1, h2, h3⟩ := fbmGo_spec q rows 0 0 none
  rw [find_best_match_eq] at hi
  split at hi
  case isTrue hc =>
    rcases h3 with ⟨hb, ho⟩ | ⟨k, hk1, hk2, hk3, hk4⟩
    · rw [ho] at hi; cases hi
    · rw [hk2] at hi
      injection hi with hi
      intro j hj scj sci hjs his
      have hik : i = k := by omega
      have hsci : sci = (fbmGo q 0 0 none rows).1 := by
        rw [hik] at his
        rw [show rowScore q rows k = some (fbmGo q 0 0 none rows).1 from hk1] at his
        injection his with his
        exact his.symm
      rw [hsci]
      exact hk4 j scj (by omega) hjs
  case isFalse => cases hi

/-- Claim C6 witness: two valid candidates where the second scores strictly
higher; the theorem instantiated here yields the strict comparison for the
earlier row. -/
theorem C6_witness :
    find_best_match "100 Oak Rd"
        [some ⟨"1 Other", "1234567890123"⟩, some ⟨"100 Oak Rd", "1234567890123"⟩] = some 1 ∧
      rowScore "100 Oak Rd"
        [some ⟨"1 Other", "1234567890123"⟩, some ⟨"100 Oak Rd", "1234567890123"⟩] 0 = some 0 ∧
      rowScore "100 Oak Rd"
        [some ⟨"1 Other", "1234567890123"⟩, some ⟨"100 Oak Rd", "1234567890123"⟩] 1 = some 1 ∧
      (0 : ℚ) < 1 := by
  have hs : similar "100 Oak Rd" "100 Oak Rd" = some 1 := by
    have hv : vetoFires "100 Oak Rd" "100 Oak Rd" = false := by decide
    have hb : baseScore "100 Oak Rd" "100 Oak Rd" = 1 := by
      unfold baseScore
      rw [show interCount (tokenSet (normalize "100 Oak Rd".data))
            (tokenSet (normalize "100 Oak Rd".data)) = 3 from by decide,
          show (tokenSet (normalize "100 Oak Rd".data)).length = 3 from by decide]
      norm_num
    rw [similar, hv, hb]
    norm_num [show tokenSet (normalize "100 Oak Rd".data) ≠ [] from by decide]
  have h0 : entryScore "100 Oak Rd" (some ⟨"1 Other", "1234567890123"⟩) = some 0 := by decide
  have h1 : entryScore "100 Oak Rd" (some ⟨"100 Oak Rd", "1234567890123"⟩) = some 1 := by
    simp [entryScore, show validAccount "1234567890123" = true from by decide, hs]
  have hf : find_best_match "100 Oak Rd"
      [some ⟨"1 Other", "1234567890123"⟩, some ⟨"100 Oak Rd", "1234567890123"⟩] = some 1 := by
    simp [find_best_match, fbmGo, h0, h1]
    norm_num
  refine ⟨hf, by rw [rowScore_zero]; exact h0, by rw [rowScore_succ, rowScore_zero]; exact h1, ?_⟩
  exact C6_tiebreak "100 Oak Rd"
    [some ⟨"1 Other", "1234567890123"⟩, some ⟨"100 Oak Rd", "1234567890123"⟩] 1 hf 0
    (by omega) 0 1 (by rw [rowScore_zero]; exact h0) (by rw [rowScore_succ, rowScore_zero]; exact h1)

/-- Claim C7: when the numeric veto does not fire, the query token set is
nonempty, and the base token-overlap score is below 0.8, `similar` applies
the abbreviation table (rd→road, st→street, ln→lane, dr→drive,
blvd→boulevard, hwy→highway) to both normalized strings, recomputes the
same ratio over the new token sets, and returns the maximum of the base and
recomputed scores. -/
theorem C7_abbrev_retry (q c : String)
    (hv : vetoFires q c = false)
    (hq : tokenSet (normalize q.data) ≠ [])
    (hb : baseScore q c < 4/5) :
    similar q c = some (max (baseScore q c) (abbrevScore q c)) := by
  have hnsw : tokenSet (applyReplacements (normalize q.data)) ≠ [] :=
    abbrev_tokenSet_ne_nil _ hq
  rw [similar, hv]
  simp only [Bool.false_eq_true, if_false]
  rw [if_neg hq, if_pos hb, if_neg hnsw]

/-- Claim C7 witness: the spec's example `score("100 Oak Rd", "100 Oak Road")`
— the base score is 2/3 < 0.8, the abbreviation-normalized score is 1, and
the result is their maximum, 1.0. -/
theorem C7_witness :
    similar "100 Oak Rd" "100 Oak Road" =
        some (max (baseScore "100 Oak Rd" "100 Oak Road")
          (abbrevScore "100 Oak Rd" "100 Oak Road")) ∧
      max (baseScore "100 Oak Rd" "100 Oak Road")
        (abbrevScore "100 Oak Rd" "100 Oak Road") = 1 := by
  have hb : baseScore "100 Oak Rd" "100 Oak Road" = 2/3 := by
    unfold baseScore
    rw [show interCount (tokenSet (normalize "100 Oak Rd".data))
          (tokenSet (normalize "100 Oak Road".data)) = 2 from by decide,
        show (tokenSet (normalize "100 Oak Rd".data)).length = 3 from by decide]
    norm_num
  have ha : abbrevScore "100 Oak Rd" "100 Oak Road" = 1 := by
    unfold abbrevScore
    rw [show interCount (tokenSet (applyReplacements (normalize "100 Oak Rd".data)))
          (tokenSet (applyReplacements (normalize "100 Oak Road".data))) = 3 from by decide,
        show (tokenSet (applyReplacements (normalize "100 Oak Rd".data))).length = 3
          from by decide]
    norm_num
  refine ⟨C7_abbrev_retry "100 Oak Rd" "100 Oak Road" (by decide) (by decide) ?_, ?_⟩
  · rw [hb]; norm_num
  · rw [hb, ha]; norm_num

/-- Claim C8: the scorer is total — it never raises (always `some`), its
value lies in [0, 1], and in particular an empty query scores 0 against any
candidate without dividing by zero. -/
theorem C8_total_bounded (q c : String) :
    (∃ r, similar q c = some r ∧ 0 ≤ r ∧ r ≤ 1) ∧ similar "" c = some 0 := by
  constructor
  · by_cases hv : vetoFires q c = true
    · exact ⟨0, by rw [similar, hv]; simp, le_refl 0, by norm_num⟩
    · have hv' : vetoFires q c = false := by simpa using hv
      by_cases hq : tokenSet (normalize q.data) = []
      · refine ⟨0, ?_, le_refl 0, by norm_num⟩
        rw [similar, hv']
        simp only [Bool.false_eq_true, if_false]
        rw [if_pos hq]
      · have hbb := ratio_bounds (tokenSet (normalize q.data))
          (tokenSet (normalize c.data)) hq
        by_cases hb : baseScore q c < 4/5
        · have hnsw : tokenSet (applyReplacements (normalize q.data)) ≠ [] :=
            abbrev_tokenSet_ne_nil _ hq
          have hab := ratio_bounds (tokenSet (applyReplacements (normalize q.data)))
            (tokenSet (applyReplacements (normalize c.data))) hnsw
          refine ⟨max (baseScore q c) (abbrevScore q c), ?_, ?_, ?_⟩
          · rw [similar, hv']
            simp only [Bool.false_eq_true, if_false]
            rw [if_neg hq, if_pos hb, if_neg hnsw]
          · exact le_max_of_le_left hbb.1
          · exact max_le hbb.2 hab.2
        · refine ⟨baseScore q c, ?_, hbb.1, hbb.2⟩
          rw [similar, hv']
          simp only [Bool.false_eq_true, if_false]
          rw [if_neg hq, if_neg hb]
  · rfl

theorem interCount_nil (a : List (List Char)) : interCount a [] = 0 := by
  simp [interCount]

/-- Claim C10: a candidate that is empty or all whitespace scores 0 against
any query — its token set is empty, so the intersection is empty in both the
base and the abbreviation-retry computation, and no exception is raised. -/
theorem C10_empty_candidate (q c : String) (hc : c.data.all isSpaceChar = true) :
    similar q c = some 0 := by
  have hmap : (c.data.map lowerChar).all isSpaceChar = true := by
    rw [List.all_eq_true] at hc ⊢
    intro x hx
    rcases List.mem_map.mp hx with ⟨y, hy, rfl⟩
    rw [lowerChar_space y (hc y hy)]
    exact hc y hy
  have hwords : words (c.data.map lowerChar) = [] := (words_eq_nil_iff _).mpr hmap
  have hnc : normalize c.data = [] := by
    unfold normalize collapse
    rw [hwords]
    rfl
  have hveto : vetoFires q c = false := by
    unfold vetoFires numsOf
    rw [hnc]
    rw [show extract_numbers (words ([] : List Char)) = [] from rfl]
    simp
  have htok : tokenSet (normalize c.data) = [] := by rw [hnc]; rfl
  by_cases hq : tokenSet (normalize q.data) = []
  · rw [similar, hveto]
    simp only [Bool.false_eq_true, if_false]
    rw [if_pos hq]
  · have hbase : baseScore q c = 0 := by
      unfold baseScore
      rw [htok, interCount_nil]
      norm_num
    have habbrev : abbrevScore q c = 0 := by
      unfold abbrevScore
      rw [hnc, show applyReplacements ([] : List Char) = [] from rfl,
        show tokenSet ([] : List Char) = [] from rfl, interCount_nil]
      norm_num
    have hb : baseScore q c < 4/5 := by rw [hbase]; norm_num
    have hnsw : tokenSet (applyReplacements (normalize q.data)) ≠ [] :=
      abbrev_tokenSet_ne_nil _ hq
    rw [similar, hveto]
    simp only [Bool.false_eq_true, if_false]
    rw [if_neg hq, if_pos hb, if_neg hnsw, hbase, habbrev]
    norm_num

/-- Claim C10 witness: a whitespace-only candidate scores 0 against a
concrete query. -/
theorem C10_witness : similar "500 Pine St" "  " = some 0 :=
  C10_empty_candidate "500 Pine St" "  " (by decide)

/-- Claim C3 witness (for the amended statement): a fully successful page
whose every selector finds no element yields a complete mapping with "N/A"
everywhere. -/
theorem C3_amended_witness :
    (∀ nm ∈ allFieldNames,
        (getField (extract_info (fun _ => Except.ok none)) nm).isSome = true) ∧
      (∀ i nm, (i, nm) ∈ mainFieldSteps → (fun _ => Except.ok none : Doc) i = Except.ok none →
        getField (extract_info (fun _ => Except.ok none)) nm = some "N/A") ∧
      (∀ i nm, (i, nm) ∈ bldgFieldSteps → (fun _ => Except.ok none : Doc) i = Except.ok none →
        getField (extract_info (fun _ => Except.ok none)) nm = some "N/A") ∧
      ((fun _ => Except.ok none : Doc) 11 = Except.ok none →
        ∀ i nm, (i, nm) ∈ bldgFieldSteps →
          getField (extract_info (fun _ => Except.ok none)) nm = some "N/A") :=
  C3_amended (fun _ => Except.ok none) (fun _ h => by exact Except.noConfusion h)

/-- Claim C9: the text normalizer (lower-casing, whitespace collapse and
farm-to-market rewriting) is idempotent — for every string `s`,
`normalize (normalize s) = normalize s`. -/
theorem C9_normalize_idem (s : String) :
    normalizeStr (normalizeStr s) = normalizeStr s := by
  show String.mk (normalize (normalize s.data)) = String.mk (normalize s.data)
  congr 1
  calc normalize (normalize s.data)
      = normalize_fm (collapse (normalize s.data)) := rfl
    _ = normalize_fm (normalize s.data) := by rw [collapse_normalize]
    _ = normalize_fm (normalize_fm (collapse s.data)) := rfl
    _ = normalize_fm (collapse s.data) := normalize_fm_idem _
    _ = normalize s.data := rfl

end Hcad
